import Mathlib

/-!
# The graph store of `graph-class-searches` (`graph.h`, `graph.cpp`)

A shallow embedding of the class `Graph` and a verification of its mutation and
query operations, its traversals and its path and spanning-tree functions.

Modelling conventions.

* A `std::string` is a Lean `String` read as its sequence of `char`s; `size()` is the
  number of characters and `operator<` is the lexicographic order on character codes
  (`strLt`).
* A `std::map<string, V>` is an association list kept in increasing key order by
  `mapAssign` (`operator[]` followed by an assignment); `mapAt` is `at`, `mapCount` is
  `count`.  Lookups take the first binding of a key, so every function below is defined
  on all lists.
* A `Vertex *` is represented by the label of the vertex it points to: `add` stores
  every vertex under its own label, vertices are never removed before the destructor
  runs, and the code only ever reads `->label` and `->connectedVerts` through such a
  pointer.
* An `Edge *` is represented by the record it points to.
* `int` weights are integers that are only stored and printed by the functions below.
  Collection sizes are returned exactly: a vector with `2^31` elements is out of reach.
* The recursive member functions `connect` and `disconnect` take a fuel argument (the
  number of nested calls allowed) and return `none` when it runs out; `none` also
  stands for a C++ exception or for behaviour outside what the loop model describes.
-/

namespace GraphSearch

/-! ## Strings and ordered maps -/

/-- Lexicographic comparison of two character sequences, the order of
`std::string::operator<`. -/
def lexLt : List Char → List Char → Bool
  | _, [] => false
  | [], _ :: _ => true
  | a :: as, b :: bs =>
    if a.toNat < b.toNat then true
    else if b.toNat < a.toNat then false
    else lexLt as bs

/-- The comparison `a < b` of two `std::string`s. -/
def strLt (a b : String) : Bool := lexLt a.data b.data

/-- The member `at` of a `std::map<string, V>`: the value bound to `k`, `none` when the
key is absent (where C++ throws `std::out_of_range`). -/
def mapAt {V : Type} : List (String × V) → String → Option V
  | [], _ => none
  | (k', v) :: m, k => if k' = k then some v else mapAt m k

/-- The member `count` of a `std::map<string, V>`: `1` when the key is bound, else `0`. -/
def mapCount {V : Type} (m : List (String × V)) (k : String) : Nat :=
  if (mapAt m k).isSome then 1 else 0

/-- The statement `m[k] = v` on a `std::map<string, V>`: overwrite the binding of `k`, or
insert a new one at its place in key order. -/
def mapAssign {V : Type} : List (String × V) → String → V → List (String × V)
  | [], k, v => [(k, v)]
  | (k', v') :: m, k, v =>
    if k' = k then (k, v) :: m
    else if strLt k k' then (k, v) :: (k', v') :: m
    else (k', v') :: mapAssign m k v

/-- A write through the pointer `m[k]`, at a place where `k` is bound: the value bound
to `k` is replaced by `f` of it.  (`connect` has added `from` before it writes, and
`disconnect` has passed `vertices.at(from)`; on a map without `k` the function returns
the map as it is.) -/
def mapModify {V : Type} : List (String × V) → String → (V → V) → List (String × V)
  | [], _, _ => []
  | (k', v) :: m, k, f =>
    if k' = k then (k', f v) :: m else (k', v) :: mapModify m k f

/-- The unsigned subtraction `n - 1` on a `size_t` value `n` (64 bits, so `n < 2^64`):
it wraps around to `2^64 - 1` at `n = 0`. -/
def sizeSub1 (n : Nat) : Nat := if n = 0 then 2 ^ 64 - 1 else n - 1

/-- The call `s.substr(0, count)`: the first `count` characters of `s`, all of `s` when
it is shorter. -/
def substr0 (s : String) (count : Nat) : String := ⟨s.data.take count⟩

/-! ## Data model -/

/-- The struct `Vertex`: a label and the outgoing connections, each a pointer to the
neighbour (its label here) with the weight of the edge. -/
structure Vertex where
  label : String
  connectedVerts : List (String × Int)
  deriving DecidableEq, Repr

/-- The struct `Edge`: information for each edge in order of fromVertex, toVertex,
weight. -/
structure Edge where
  from_ : String
  to_ : String
  weight : Int
  deriving DecidableEq, Repr

/-- The data members of the class `Graph`. -/
structure Graph where
  visited : List (String × Bool)
  vertices : List (String × Vertex)
  edges : List Edge
  isDirectional : Bool
  deriving DecidableEq, Repr

/-- The constructor `Graph(bool directionalEdges)`: an empty graph. -/
def Graph.empty (directionalEdges : Bool) : Graph :=
  { visited := [], vertices := [], edges := [], isDirectional := directionalEdges }

/-! ## Queries -/

/-- The member `verticesSize`. -/
def verticesSize (g : Graph) : Int := g.vertices.length

/-- The member `edgesSize`. -/
def edgesSize (g : Graph) : Int := g.edges.length

/-- The member `contains`: true if the vertex is already in the graph. -/
def contains (g : Graph) (label : String) : Bool :=
  if mapCount g.vertices label = 1 then true else false

/-- The member `vertexDegree`: number of edges from the given vertex, `-1` if the vertex
is not found.  The `none` branch of the lookup is never taken, since `contains` holds
there. -/
def vertexDegree (g : Graph) (label : String) : Int :=
  if contains g label then
    match mapAt g.vertices label with
    | some v => v.connectedVerts.length
    | none => 0
  else -1

/-- The member `containsEdge`: true if an edge `from -> to` exists; the weight argument
is stored in a scratch record and never compared. -/
def containsEdge (g : Graph) (from_ to_ : String) (_weight : Int) : Bool :=
  g.edges.any (fun s => s.from_ == from_ && s.to_ == to_)

/-- The string built for one connection in `getEdgesAsString`: `label(weight),`. -/
def edgeItem (s : String × Int) : String :=
  (s.1 ++ "(") ++ toString s.2 ++ "),"

/-- The member `getEdgesAsString`: the connections of a vertex, collected in a map keyed
by neighbour label, concatenated in key order, minus the last character; the empty
string if the vertex is not found. -/
def getEdgesAsString (g : Graph) (label : String) : String :=
  if !contains g label then ""
  else
    match mapAt g.vertices label with
    | none => ""
    | some v =>
      let z : List (String × String) :=
        v.connectedVerts.foldl (fun z s => mapAssign z s.1 (edgeItem s)) []
      let p : String := z.foldl (fun p i => p ++ i.2) ""
      substr0 p (sizeSub1 p.length)

/-- The item `neighbor(weight)` of the rendered adjacency, as the specification writes
it. -/
def edgeText (s : String × Int) : String :=
  s.1 ++ "(" ++ toString s.2 ++ ")"

/-! ## Mutation -/

/-- The member `add`: true if the vertex was added, false if it already is in the
graph. -/
def add (g : Graph) (label : String) : Graph × Bool :=
  if contains g label then (g, false)
  else ({ g with vertices := mapAssign g.vertices label ⟨label, []⟩ }, true)

/-- The updates `connect` makes once its guard has passed: add the missing end points,
push the new edge record, push the connection onto the adjacency list of `from`. -/
def connectStep (g : Graph) (from_ to_ : String) (weight : Int) : Graph :=
  let g1 := if !contains g from_ then (add g from_).1 else g
  let g2 := if !contains g1 to_ then (add g1 to_).1 else g1
  let g3 := { g2 with edges := g2.edges ++ [Edge.mk from_ to_ weight] }
  { g3 with
    vertices := mapModify g3.vertices from_ (fun v =>
      { v with connectedVerts := v.connectedVerts ++ [(to_, weight)] }) }

/-- The member `connect`, with `fuel` nested calls allowed.  An undirected graph calls
itself once more with the end points swapped and drops the result of that call. -/
def connect : Nat → Graph → String → String → Int → Option (Graph × Bool)
  | 0, _, _, _, _ => none
  | fuel + 1, g, from_, to_, weight =>
    if containsEdge g from_ to_ weight || from_ == to_ then some (g, false)
    else
      let g4 := connectStep g from_ to_ weight
      if !g4.isDirectional then
        match connect fuel g4 to_ from_ weight with
        | none => none
        | some (g5, _) => some (g5, true)
      else some (g4, true)

/-- The outcome of `connect` with its nested calls unrolled: the mirrored call of an
undirected graph either finds the reverse edge present or adds it, and the call nested
in that one finds the edge `from -> to` present. -/
def connectResult (g : Graph) (from_ to_ : String) (weight : Int) : Graph × Bool :=
  if containsEdge g from_ to_ weight || from_ == to_ then (g, false)
  else
    let g4 := connectStep g from_ to_ weight
    if !g4.isDirectional then
      if containsEdge g4 to_ from_ weight || to_ == from_ then (g4, true)
      else (connectStep g4 to_ from_ weight, true)
    else (g4, true)

/-- The loops of `disconnect`,
`for (auto &s : v) if (p(s)) v.erase(find(v.begin(), v.end(), s));`,
run on the contiguous buffer of the vector: the iterator is an index `i` into the
buffer and the end of the range is the size the vector had when the loop started, so
`k` iterations remain.  A slot inside the vector holds `v[i]`; when it matches, `find`
returns that very slot (element pointers are distinct, and the adjacency loop nulls the
pointer of the matching pair first), `erase` shifts the later elements down by one, and
the loop moves on to the next index, so the element that moved into slot `i` is not
looked at.  A slot past the current end of the vector still holds what the last element
`last` of the original vector holds; the loop reads it and goes on when it does not
match.  When it matches, what the code does depends on the element type and on whether
the element is still alive (a freed edge, a null vertex pointer, `erase(end())`); the
model gives no result then.  This cannot happen when at most one element matches. -/
def eraseLoopFrom {α : Type} (p : α → Bool) (last : α) : Nat → Nat → List α → Option (List α)
  | 0, _, v => some v
  | k + 1, i, v =>
    match v[i]? with
    | some s =>
      if p s then eraseLoopFrom p last k (i + 1) (v.eraseIdx i)
      else eraseLoopFrom p last k (i + 1) v
    | none => if p last then none else eraseLoopFrom p last k (i + 1) v

/-- The erasing loop of `disconnect` from `begin()` to the `end()` taken on entry. -/
def eraseLoop {α : Type} (p : α → Bool) (v : List α) : Option (List α) :=
  match v.getLast? with
  | none => some v
  | some last => eraseLoopFrom p last v.length 0 v

/-- The two loops of `disconnect`, run once its guard has passed: erase the matching
edge record, then erase the matching connection of `from`.  `vertices.at(from)` throws
when `from` is not a vertex. -/
def disconnectStep (g : Graph) (from_ to_ : String) : Option Graph :=
  match eraseLoop (fun s : Edge => s.from_ == from_ && s.to_ == to_) g.edges with
  | none => none
  | some es =>
    match mapAt g.vertices from_ with
    | none => none
    | some v =>
      match eraseLoop (fun s : String × Int => s.1 == to_) v.connectedVerts with
      | none => none
      | some cv =>
        some { g with
          edges := es
          vertices := mapModify g.vertices from_ (fun u => { u with connectedVerts := cv }) }

/-- The member `disconnect`, with `fuel` nested calls allowed.  An undirected graph calls
itself once more with the end points swapped and drops the result of that call. -/
def disconnect : Nat → Graph → String → String → Option (Graph × Bool)
  | 0, _, _, _ => none
  | fuel + 1, g, from_, to_ =>
    if !containsEdge g from_ to_ 0 || from_ == to_ then some (g, false)
    else
      match disconnectStep g from_ to_ with
      | none => none
      | some g2 =>
        if !g2.isDirectional then
          match disconnect fuel g2 to_ from_ with
          | none => none
          | some (g3, _) => some (g3, true)
        else some (g2, true)

/-- The graph without the edge `from -> to`: the edge records and the connections of
`from` that do not match, in their order. -/
def removeEdge (g : Graph) (from_ to_ : String) : Graph :=
  { g with
    edges := g.edges.filter (fun s => !(s.from_ == from_ && s.to_ == to_))
    vertices := mapModify g.vertices from_ (fun u =>
      { u with connectedVerts := u.connectedVerts.filter (fun s => !(s.1 == to_)) }) }

/-- The outcome of `disconnect` with its nested calls unrolled, on a graph where every
loop finds at most one match. -/
def disconnectResult (g : Graph) (from_ to_ : String) : Graph × Bool :=
  if !containsEdge g from_ to_ 0 || from_ == to_ then (g, false)
  else
    let g2 := removeEdge g from_ to_
    if !g2.isDirectional then
      if !containsEdge g2 to_ from_ 0 || to_ == from_ then (g2, true)
      else (removeEdge g2 to_ from_, true)
    else (g2, true)

/-- The graphs an owner of a `Graph` object can hold: the one the constructor builds,
changed by any sequence of returning `add`, `connect` and `disconnect` calls. -/
inductive Reachable (directionalEdges : Bool) : Graph → Prop
  | empty : Reachable directionalEdges (Graph.empty directionalEdges)
  | add {g : Graph} (label : String) :
      Reachable directionalEdges g → Reachable directionalEdges (add g label).1
  | connect {g g' : Graph} {r : Bool} (fuel : Nat) (from_ to_ : String) (weight : Int) :
      Reachable directionalEdges g → connect fuel g from_ to_ weight = some (g', r) →
      Reachable directionalEdges g'
  | disconnect {g g' : Graph} {r : Bool} (fuel : Nat) (from_ to_ : String) :
      Reachable directionalEdges g → disconnect fuel g from_ to_ = some (g', r) →
      Reachable directionalEdges g'

/-- The representation invariant of the graph store: labels are bound once and to a
vertex carrying that label, there is at most one edge record per ordered pair and none
from a label to itself, the adjacency list of every vertex lists the edge records
leaving it, in their order, and the end points of every edge record are vertices. -/
structure WellFormed (g : Graph) : Prop where
  keys_nodup : (g.vertices.map Prod.fst).Nodup
  label_eq : ∀ l v, mapAt g.vertices l = some v → v.label = l
  edges_unique : g.edges.Pairwise (fun e₁ e₂ => ¬ (e₁.from_ = e₂.from_ ∧ e₁.to_ = e₂.to_))
  no_self_loop : ∀ e ∈ g.edges, e.from_ ≠ e.to_
  adjacency : ∀ l v, mapAt g.vertices l = some v →
    v.connectedVerts =
      (g.edges.filter (fun e => e.from_ == l)).map (fun e => (e.to_, e.weight))
  endpoints : ∀ e ∈ g.edges, contains g e.from_ = true ∧ contains g e.to_ = true

/-- Every edge record has its mirror record, with the same weight. -/
def Mirrored (g : Graph) : Prop :=
  ∀ e ∈ g.edges, Edge.mk e.to_ e.from_ e.weight ∈ g.edges

/-- The first part of `testGraphBasic` in `graphtest.cpp`: vertices `a` to `e`, then the
edges `a -> b (10)`, `a -> d (40)`, `a -> c (20)`, with the rejected calls in between. -/
def testGraphBasic : Option Graph := do
  let g := Graph.empty true
  let g := (add g "a").1
  let g := (add g "b").1
  let g := (add g "c").1
  let g := (add g "d").1
  let g := (add g "e").1
  let g := (add g "b").1
  let (g, _) ← connect 3 g "a" "b" 10
  let (g, _) ← connect 3 g "a" "b" 50
  let (g, _) ← connect 3 g "a" "a" 1
  let (g, _) ← connect 3 g "a" "d" 40
  let (g, _) ← connect 3 g "a" "c" 20
  pure g

/-- The graph `testGraphBasic` builds, written out. -/
def basicGraph : Graph :=
  { visited := []
    vertices := [("a", Vertex.mk "a" [("b", 10), ("d", 40), ("c", 20)]),
      ("b", Vertex.mk "b" []), ("c", Vertex.mk "c" []), ("d", Vertex.mk "d" []),
      ("e", Vertex.mk "e" [])]
    edges := [Edge.mk "a" "b" 10, Edge.mk "a" "d" 40, Edge.mk "a" "c" 20]
    isDirectional := true }

/-- An undirected graph with the three edges that `graphtest.cpp` expects of
`graph0.txt`: `A - B (1)`, `A - C (8)`, `B - C (3)`, each stored in both directions. -/
def undirectedGraph0 : Graph :=
  { visited := []
    vertices := [("A", Vertex.mk "A" [("B", 1), ("C", 8)]),
      ("B", Vertex.mk "B" [("A", 1), ("C", 3)]),
      ("C", Vertex.mk "C" [("A", 8), ("B", 3)])]
    edges := [Edge.mk "A" "B" 1, Edge.mk "B" "A" 1, Edge.mk "A" "C" 8, Edge.mk "C" "A" 8,
      Edge.mk "B" "C" 3, Edge.mk "C" "B" 3]
    isDirectional := false }

/-! ## Traversals and algorithms

The member functions below take a fuel argument that bounds the nested calls of `dfs`
and the iterations of the `while` loops.  They return `Except.error` with the fault when
the fuel runs out, when `vertices.at` throws `std::out_of_range`, or when the code
leaves defined behaviour; `dfs` and `bfs` change the member `visited`, so their fault
comes with the graph as it is at that moment.  A visit callback acts on a state `σ` of
the caller (the tests append to a global string stream). -/

/-- The ways a call can fail to return. -/
inductive Fault where
  | outOfFuel
  | outOfRange
  | undefinedBehaviour
  deriving DecidableEq, Repr

/-- The callback `vertexPrinter` of `graphtest.cpp`: `globalSS << s`. -/
def vertexPrinter (s : String) (globalSS : String) : String := globalSS ++ s

/-- The callback `edgePrinter` of `graphtest.cpp`:
`globalSS << "[" << from << to << " " << weight << "]"`. -/
def edgePrinter (from_ to_ : String) (weight : Int) (globalSS : String) : String :=
  globalSS ++ "[" ++ from_ ++ to_ ++ " " ++ toString weight ++ "]"

/-- The member `dfs`: mark the start label, then call `dfs` on every connection whose
label has no entry in `visited`.  The callback `visit` is passed on and never called. -/
def dfs {σ : Type} (visit : String → σ → σ) :
    Nat → Graph → String → σ → Except (Fault × Graph) (Graph × σ)
  | 0, g, _, _ => .error (.outOfFuel, g)
  | fuel + 1, g, startLabel, out =>
    let g1 := { g with visited := mapAssign g.visited startLabel true }
    match mapAt g1.vertices startLabel with
    | none => .error (.outOfRange, g1)
    | some v =>
      v.connectedVerts.foldlM (fun (st : Graph × σ) s =>
        if mapCount st.1.visited s.1 = 0 then dfs visit fuel st.1 s.1 st.2
        else .ok st) (g1, out)

/-- The `for` loop inside the `while` loop of `bfs`: every connection of the start
vertex whose label has no entry in `visited` is marked and pushed on the queue. -/
def bfsScan (g : Graph) (q : List String) (connectedVerts : List (String × Int)) :
    Graph × List String :=
  connectedVerts.foldl (fun (st : Graph × List String) s =>
    if mapCount st.1.visited s.1 = 0 then
      ({ st.1 with visited := mapAssign st.1.visited s.1 true }, st.2 ++ [s.1])
    else st) (g, q)

/-- The `while` loop of `bfs`: take the front `u` of the queue and scan the connections
of `vertices.at(startLabel)`; `u` is not used. -/
def bfsLoop {σ : Type} (visit : String → σ → σ) :
    Nat → Graph → String → List String → σ → Except (Fault × Graph) (Graph × σ)
  | 0, g, _, _, _ => .error (.outOfFuel, g)
  | fuel + 1, g, startLabel, q, out =>
    match q with
    | [] => .ok (g, out)
    | _u :: q' =>
      match mapAt g.vertices startLabel with
      | none => .error (.outOfRange, g)
      | some v =>
        bfsLoop visit fuel (bfsScan g q' v.connectedVerts).1 startLabel
          (bfsScan g q' v.connectedVerts).2 out

/-- The member `bfs`.  The callback `visit` is never called. -/
def bfs {σ : Type} (visit : String → σ → σ) (fuel : Nat) (g : Graph) (startLabel : String)
    (out : σ) : Except (Fault × Graph) (Graph × σ) :=
  bfsLoop visit fuel { g with visited := mapAssign g.visited startLabel true } startLabel
    [startLabel] out

/-- The constant `INT32_MAX`. -/
def INT32_MAX : Int := 2 ^ 31 - 1

/-- The sum of two `int`s as two's complement hardware computes it (a signed overflow is
undefined in C++). -/
def int32Add (a b : Int) : Int := (a + b + 2 ^ 31) % 2 ^ 32 - 2 ^ 31

/-- The comparison `a < b` of two `pair<string, int>`. -/
def pairLt (a b : String × Int) : Bool :=
  strLt a.1 b.1 || (!strLt b.1 a.1 && decide (a.2 < b.2))

/-- The member `insert` of a `std::set<pair<string, int>>`, kept in increasing order;
an element that is in the set already is not inserted again. -/
def setInsert : List (String × Int) → String × Int → List (String × Int)
  | [], x => [x]
  | y :: s, x =>
    if pairLt x y then x :: y :: s
    else if pairLt y x then y :: setInsert s x
    else y :: s

/-- The statement `extract.erase(extract.find(x))`: `find` returns `end()` when `x` is
not in the set, and `erase(end())` is undefined. -/
def setEraseFound (s : List (String × Int)) (x : String × Int) :
    Except Fault (List (String × Int)) :=
  if x ∈ s then .ok (s.erase x) else .error .undefinedBehaviour

/-- The expression `m[k]` read from a `map<string, int>`: a missing key is inserted with
the value `0`. -/
def mapIndex (m : List (String × Int)) (k : String) : Int × List (String × Int) :=
  match mapAt m k with
  | some v => (v, m)
  | none => (0, mapAssign m k 0)

/-- The local variables of `dijkstra`. -/
structure DijkstraState where
  weights : List (String × Int)
  previous : List (String × String)
  extract : List (String × Int)
  weightsInPath : List (String × Int)
  currentPath : Int
  deriving DecidableEq, Repr

/-- The body of the `for` loop of `dijkstra` for the connection `s` of `u`. -/
def dijkstraRelax (u : String) (st : DijkstraState) (s : String × Int) :
    Except Fault DijkstraState :=
  let v := s.1
  let weight := s.2
  let wip := (mapIndex st.weightsInPath u).2
  let wu := (mapIndex st.weightsInPath u).1
  if st.currentPath > int32Add wu weight then
    match (if st.currentPath != INT32_MAX then setEraseFound st.extract (v, weight)
        else .ok st.extract) with
    | .error e => .error e
    | .ok extract1 =>
      .ok { weights := mapAssign st.weights v weight
            previous := mapAssign st.previous v u
            extract := setInsert extract1 (v, weight)
            weightsInPath := wip
            currentPath := int32Add wu weight }
  else .ok { st with weightsInPath := wip }

/-- The `while` loop of `dijkstra`: take the least element of `extract` and run the
`for` loop over the connections of its label. -/
def dijkstraLoop : Nat → Graph → DijkstraState → Except Fault DijkstraState
  | 0, _, _ => .error .outOfFuel
  | fuel + 1, g, st =>
    match st.extract with
    | [] => .ok st
    | tmp :: rest =>
      match mapAt g.vertices tmp.1 with
      | none => .error .outOfRange
      | some vert =>
        match vert.connectedVerts.foldlM (dijkstraRelax tmp.1) { st with extract := rest } with
        | .error e => .error e
        | .ok st1 => dijkstraLoop fuel g st1

/-- The member `dijkstra`: the pair of the maps `weights` and `previous`. -/
def dijkstra (fuel : Nat) (g : Graph) (startLabel : String) :
    Except Fault (List (String × Int) × List (String × String)) :=
  match dijkstraLoop fuel g
      { weights := [], previous := [], extract := setInsert [] (startLabel, 0),
        weightsInPath := mapAssign [] startLabel 0, currentPath := INT32_MAX } with
  | .error e => .error e
  | .ok st => .ok (st.weights, st.previous)

/-- The comparison `a < b` of two `pair<int, string>`. -/
def costLt (a b : Int × String) : Bool :=
  decide (a.1 < b.1) || (!decide (b.1 < a.1) && strLt a.2 b.2)

/-- The member `push` of a `priority_queue<pair<int, string>>`, held as the list of its
elements from the greatest down, so that `top` is the head and `pop` leaves the tail. -/
def pqPush : List (Int × String) → Int × String → List (Int × String)
  | [], x => [x]
  | y :: q, x => if costLt y x then x :: y :: q else y :: pqPush q x

/-- The `for` loop of `mstPrim`: push every connection whose label does not have exactly
one entry in the member `visited` of the graph. -/
def primScan (g : Graph) (q : List (Int × String)) (connectedVerts : List (String × Int)) :
    List (Int × String) :=
  connectedVerts.foldl (fun q s =>
    if mapCount g.visited s.1 ≠ 1 then pqPush q (s.2, s.1) else q) q

/-- The `while` loop of `mstPrim`, and the `return -1` that follows it. -/
def mstPrimLoop {σ : Type} (visit : String → String → Int → σ → σ) :
    Nat → Graph → List (Int × String) → List (String × Bool) → Int → σ →
      Except Fault (Int × σ)
  | 0, _, _, _, _, _ => .error .outOfFuel
  | fuel + 1, g, q, visitedP, mst_cost, out =>
    match q with
    | [] => .ok (-1, out)
    | tmp :: q' =>
      if mapCount visitedP tmp.2 ≠ 1 then
        match mapAt g.vertices tmp.2 with
        | none => .error .outOfRange
        | some v =>
          mstPrimLoop visit fuel g (primScan g q' v.connectedVerts)
            (mapAssign visitedP tmp.2 true) (int32Add mst_cost tmp.1) out
      else mstPrimLoop visit fuel g q' visitedP mst_cost out

/-- The member `mstPrim`.  The callback `visit` is never called. -/
def mstPrim {σ : Type} (visit : String → String → Int → σ → σ) (fuel : Nat) (g : Graph)
    (startLabel : String) (out : σ) : Except Fault (Int × σ) :=
  mstPrimLoop visit fuel g (pqPush [] (0, startLabel)) [] 0 out

/-- An adjacency entry of `u` points at `v`. -/
def Adj (g : Graph) (u v : String) : Prop :=
  ∃ vert w, mapAt g.vertices u = some vert ∧ (v, w) ∈ vert.connectedVerts

/-- The label `v` is reachable from `s` along adjacency entries, `s` itself included. -/
def Reaches (g : Graph) (s v : String) : Prop :=
  Relation.ReflTransGen (Adj g) s v

/-- The connections of the vertices that have no entry in `visitedP`, counted over the
vertex map: with the length of the queue, the number of iterations `mstPrim` has left. -/
def unvisitedDegrees (vs : List (String × Vertex)) (visitedP : List (String × Bool)) : Nat :=
  ((vs.filter (fun kv => (mapAt visitedP kv.1).isNone)).map
    (fun kv => kv.2.connectedVerts.length)).sum

/-- Every adjacency entry points at a vertex of the graph. -/
def TargetsBound (g : Graph) : Prop :=
  ∀ k v, mapAt g.vertices k = some v → ∀ s ∈ v.connectedVerts, mapAt g.vertices s.1 ≠ none

/-- The number of vertices without an entry in `visited`: a bound on how deep `dfs` can
still nest. -/
def unmarkedCount (vs : List (String × Vertex)) (visited : List (String × Bool)) : Nat :=
  (vs.filter (fun kv => (mapAt visited kv.1).isNone)).length

/-- What a run of `dfs` below the vertex `u` has done when it takes the map `visited`
from `V` to `V'`: no entry is lost, every label with a new entry is reachable from `u`,
every connection of a label with a new entry has an entry, and the entries stay
`true`. -/
structure DfsPost (g : Graph) (u : String) (V V' : List (String × Bool)) : Prop where
  keeps : ∀ k, mapAt V k ≠ none → mapAt V' k ≠ none
  reach : ∀ k, mapAt V' k ≠ none → mapAt V k = none → Reaches g u k
  closed : ∀ k, mapAt V' k ≠ none → mapAt V k = none → ∀ z, Adj g k z → mapAt V' z ≠ none
  allTrue : (∀ x ∈ V, x.2 = true) → ∀ x ∈ V', x.2 = true

/-- A directed graph with the three edges that `graphtest.cpp` expects of `graph0.txt`,
connected in the order `A -> B (1)`, `B -> C (3)`, `A -> C (8)`. -/
def directedGraph0 : Graph :=
  { visited := []
    vertices := [("A", Vertex.mk "A" [("B", 1), ("C", 8)]),
      ("B", Vertex.mk "B" [("C", 3)]), ("C", Vertex.mk "C" [])]
    edges := [Edge.mk "A" "B" 1, Edge.mk "B" "C" 3, Edge.mk "A" "C" 8]
    isDirectional := true }

/-- The directed chain `A -> B (1)`, `B -> C (1)`. -/
def chainGraph : Graph :=
  { visited := []
    vertices := [("A", Vertex.mk "A" [("B", 1)]), ("B", Vertex.mk "B" [("C", 1)]),
      ("C", Vertex.mk "C" [])]
    edges := [Edge.mk "A" "B" 1, Edge.mk "B" "C" 1]
    isDirectional := true }

/-! ## Ordered maps: lookups after an update -/

theorem mapAt_mapAssign {V : Type} (m : List (String × V)) (k k' : String) (v : V) :
    mapAt (mapAssign m k v) k' = if k = k' then some v else mapAt m k' := by
  induction m with
  | nil => simp [mapAssign, mapAt]
  | cons a m ih =>
    obtain ⟨ka, va⟩ := a
    simp only [mapAssign]
    by_cases h1 : ka = k
    · subst h1
      simp only [if_true, mapAt]
      split <;> rfl
    · simp only [h1, if_false]
      by_cases h2 : strLt k ka = true
      · simp only [h2, if_true, mapAt]
      · simp only [h2, mapAt, ih]
        by_cases h3 : ka = k'
        · have : ¬ k = k' := fun h => h1 (h3.trans h.symm)
          simp [h3, this]
        · simp [h3]

theorem mapAt_mapModify {V : Type} (m : List (String × V)) (k k' : String) (f : V → V) :
    mapAt (mapModify m k f) k' = if k = k' then (mapAt m k).map f else mapAt m k' := by
  induction m with
  | nil => simp [mapModify, mapAt]
  | cons a m ih =>
    obtain ⟨ka, va⟩ := a
    simp only [mapModify]
    by_cases h1 : ka = k
    · subst h1
      by_cases h3 : ka = k'
      · simp [mapAt, h3]
      · simp [mapAt, h3]
    · simp only [h1, if_false, mapAt, ih]
      by_cases h3 : ka = k'
      · have : ¬ k = k' := fun h => h1 (h3.trans h.symm)
        simp [h3, this]
      · simp [h3]

theorem length_mapModify {V : Type} (m : List (String × V)) (k : String) (f : V → V) :
    (mapModify m k f).length = m.length := by
  induction m with
  | nil => rfl
  | cons a m ih =>
    obtain ⟨ka, va⟩ := a
    simp only [mapModify]
    split <;> simp [ih]

theorem keys_mapModify {V : Type} (m : List (String × V)) (k : String) (f : V → V) :
    (mapModify m k f).map Prod.fst = m.map Prod.fst := by
  induction m with
  | nil => rfl
  | cons a m ih =>
    obtain ⟨ka, va⟩ := a
    simp only [mapModify]
    split <;> simp [ih]

theorem mapAt_eq_none_iff {V : Type} (m : List (String × V)) (k : String) :
    mapAt m k = none ↔ k ∉ m.map Prod.fst := by
  induction m with
  | nil => simp [mapAt]
  | cons a m ih =>
    obtain ⟨ka, va⟩ := a
    by_cases h : ka = k
    · simp [mapAt, h]
    · have h' : ¬ k = ka := fun e => h e.symm
      simp [mapAt, h, h', ih]

/-- Assigning to a key that is not bound inserts one binding and moves no other. -/
theorem mapAssign_new {V : Type} (m : List (String × V)) (k : String) (v : V)
    (h : mapAt m k = none) :
    ∃ l₁ l₂, m = l₁ ++ l₂ ∧ mapAssign m k v = l₁ ++ (k, v) :: l₂ := by
  induction m with
  | nil => exact ⟨[], [], rfl, rfl⟩
  | cons a m ih =>
    obtain ⟨ka, va⟩ := a
    have h1 : ¬ ka = k := by
      intro e
      simp [mapAt, e] at h
    have h2 : mapAt m k = none := by
      simpa [mapAt, h1] using h
    simp only [mapAssign, h1, if_false]
    by_cases h3 : strLt k ka = true
    · simp only [h3, if_true]
      exact ⟨[], (ka, va) :: m, rfl, rfl⟩
    · obtain ⟨l₁, l₂, e₁, e₂⟩ := ih h2
      simp only [h3]
      refine ⟨(ka, va) :: l₁, l₂, ?_, ?_⟩
      · simp [e₁]
      · simp [e₂]

theorem contains_eq_isSome (g : Graph) (l : String) :
    contains g l = (mapAt g.vertices l).isSome := by
  unfold contains mapCount
  cases mapAt g.vertices l <;> simp

theorem contains_true_iff (g : Graph) (l : String) :
    contains g l = true ↔ ∃ v, mapAt g.vertices l = some v := by
  rw [contains_eq_isSome, Option.isSome_iff_exists]

theorem contains_false_iff (g : Graph) (l : String) :
    contains g l = false ↔ mapAt g.vertices l = none := by
  rw [contains_eq_isSome]
  cases mapAt g.vertices l <;> simp

/-! ## `add`, `contains`, `vertexDegree` -/

theorem add_of_absent (g : Graph) (L : String) (h : mapAt g.vertices L = none) :
    add g L = ({ g with vertices := mapAssign g.vertices L ⟨L, []⟩ }, true) := by
  have hc : contains g L = false := (contains_false_iff g L).2 h
  simp [add, hc]

theorem add_of_present (g : Graph) (L : String) (h : contains g L = true) :
    add g L = (g, false) := by
  simp [add, h]

/-- C7: for a label `L` that is not a vertex of the graph, `contains(L)` is false and
`add(L)` returns true; afterwards `contains(L)` is true, `verticesSize()` has grown by
exactly one, `vertexDegree(L)` is `0`, the new vertex map is the old one with the single
binding of `L` (no connections) inserted, so every other vertex is bound as before, and
the edge collection, the mode and the visited map are the old ones; a second `add(L)`
returns false and leaves that graph unchanged. -/
theorem add_new_label (g : Graph) (L : String) (h : L ∉ g.vertices.map Prod.fst) :
    contains g L = false ∧
    (add g L).2 = true ∧
    contains (add g L).1 L = true ∧
    verticesSize (add g L).1 = verticesSize g + 1 ∧
    vertexDegree (add g L).1 L = 0 ∧
    (∃ l₁ l₂, g.vertices = l₁ ++ l₂ ∧
      (add g L).1.vertices = l₁ ++ (L, Vertex.mk L []) :: l₂) ∧
    (∀ l, l ≠ L → mapAt (add g L).1.vertices l = mapAt g.vertices l) ∧
    (add g L).1.edges = g.edges ∧
    edgesSize (add g L).1 = edgesSize g ∧
    (add g L).1.isDirectional = g.isDirectional ∧
    (add g L).1.visited = g.visited ∧
    add (add g L).1 L = ((add g L).1, false) := by
  have hn : mapAt g.vertices L = none := (mapAt_eq_none_iff _ _).2 h
  have hadd := add_of_absent g L hn
  have hat : mapAt (add g L).1.vertices L = some (Vertex.mk L []) := by
    rw [hadd]
    simp [mapAt_mapAssign]
  have hc : contains (add g L).1 L = true := (contains_true_iff _ _).2 ⟨_, hat⟩
  obtain ⟨l₁, l₂, e₁, e₂⟩ := mapAssign_new g.vertices L (Vertex.mk L []) hn
  refine ⟨(contains_false_iff g L).2 hn, by rw [hadd], hc, ?_, ?_, ⟨l₁, l₂, e₁, ?_⟩, ?_, ?_, ?_,
    ?_, ?_, add_of_present _ _ hc⟩
  · rw [hadd]
    simp only [verticesSize, e₂]
    rw [e₁]
    simp
    omega
  · simp [vertexDegree, hc, hat]
  · rw [hadd]
    exact e₂
  · intro l hl
    rw [hadd]
    simp only [mapAt_mapAssign]
    rw [if_neg (fun e => hl e.symm)]
  · rw [hadd]
  · rw [hadd]
    rfl
  · rw [hadd]
  · rw [hadd]

/-- C9: `vertexDegree(L)` is `-1` when `L` is not a vertex of the graph; otherwise it is
the number of entries of the adjacency list of `L`, which is at least `0` and is `0` for
a vertex without outgoing edges; so `vertexDegree(L) == -1` exactly when `contains(L)`
is false. -/
theorem vertexDegree_spec (g : Graph) (L : String) :
    (contains g L = false → vertexDegree g L = -1) ∧
    (contains g L = true → ∃ v, mapAt g.vertices L = some v ∧
      vertexDegree g L = (v.connectedVerts.length : Int) ∧ 0 ≤ vertexDegree g L) ∧
    (∀ v, mapAt g.vertices L = some v → v.connectedVerts = [] → vertexDegree g L = 0) ∧
    (vertexDegree g L = -1 ↔ contains g L = false) := by
  have h2 : contains g L = true → ∃ v, mapAt g.vertices L = some v ∧
      vertexDegree g L = (v.connectedVerts.length : Int) ∧ 0 ≤ vertexDegree g L := by
    intro hc
    obtain ⟨v, hv⟩ := (contains_true_iff g L).1 hc
    refine ⟨v, hv, ?_, ?_⟩ <;> simp [vertexDegree, hc, hv]
  refine ⟨fun hc => by simp [vertexDegree, hc], h2, ?_, ?_⟩
  · intro v hv he
    have hc : contains g L = true := (contains_true_iff g L).2 ⟨v, hv⟩
    simp [vertexDegree, hc, hv, he]
  · constructor
    · intro hd
      by_contra hc
      have hc' : contains g L = true := by simpa using hc
      obtain ⟨v, -, -, h0⟩ := h2 hc'
      omega
    · intro hc
      simp [vertexDegree, hc]

/-! ## `connect` -/

theorem add_edges (g : Graph) (l : String) : (add g l).1.edges = g.edges := by
  unfold add
  split <;> rfl

theorem add_isDirectional (g : Graph) (l : String) :
    (add g l).1.isDirectional = g.isDirectional := by
  unfold add
  split <;> rfl

theorem add_visited (g : Graph) (l : String) : (add g l).1.visited = g.visited := by
  unfold add
  split <;> rfl

/-- The vertex bound to `l`, or the fresh vertex `add` would create for it. -/
theorem mapAt_add (g : Graph) (a l : String) :
    mapAt (add g a).1.vertices l =
      if a = l then some ((mapAt g.vertices a).getD (Vertex.mk a [])) else mapAt g.vertices l := by
  unfold add
  by_cases hc : contains g a = true
  · obtain ⟨v, hv⟩ := (contains_true_iff g a).1 hc
    simp only [hc, if_true]
    by_cases h : a = l
    · subst h
      simp [hv]
    · simp [h]
  · have hn : mapAt g.vertices a = none := (contains_false_iff g a).1 (by simpa using hc)
    simp only [hc]
    simp [mapAt_mapAssign, hn]

/-- The graph `connect` works on after its two `add` calls. -/
theorem mapAt_ensure (g : Graph) (a l : String) :
    mapAt (if !contains g a then (add g a).1 else g).vertices l =
      if a = l then some ((mapAt g.vertices a).getD (Vertex.mk a [])) else mapAt g.vertices l := by
  by_cases hc : contains g a = true
  · obtain ⟨v, hv⟩ := (contains_true_iff g a).1 hc
    simp only [hc, Bool.not_true]
    by_cases h : a = l
    · subst h
      simp [hv]
    · simp [h]
  · have hc' : contains g a = false := by simpa using hc
    simp only [hc', Bool.not_false, if_true]
    exact mapAt_add g a l

theorem connectStep_edges (g : Graph) (a b : String) (w : Int) :
    (connectStep g a b w).edges = g.edges ++ [Edge.mk a b w] := by
  simp only [connectStep]
  split <;> split <;> simp [add_edges]

theorem connectStep_isDirectional (g : Graph) (a b : String) (w : Int) :
    (connectStep g a b w).isDirectional = g.isDirectional := by
  simp only [connectStep]
  split <;> split <;> simp [add_isDirectional]

theorem connectStep_visited (g : Graph) (a b : String) (w : Int) :
    (connectStep g a b w).visited = g.visited := by
  simp only [connectStep]
  split <;> split <;> simp [add_visited]

/-- The vertex map after the updates of `connect`: `from` is bound to its old vertex (or
a fresh one) with the connection appended, `to` to its old vertex (or a fresh one), and
every other label as before. -/
theorem mapAt_connectStep (g : Graph) (a b : String) (w : Int) (l : String) :
    mapAt (connectStep g a b w).vertices l =
      if a = l then
        some { (mapAt g.vertices a).getD (Vertex.mk a []) with
          connectedVerts := ((mapAt g.vertices a).getD (Vertex.mk a [])).connectedVerts ++ [(b, w)] }
      else if b = l then some ((mapAt g.vertices b).getD (Vertex.mk b []))
      else mapAt g.vertices l := by
  simp only [connectStep, mapAt_mapModify, mapAt_ensure]
  by_cases h1 : a = l
  · subst h1
    by_cases h2 : b = a
    · subst h2
      simp
    · simp [h2]
  · simp only [h1, if_false]
    by_cases h2 : b = l
    · subst h2
      have h3 : ¬ a = b := h1
      simp [h3]
    · simp only [h2, if_false]

theorem containsEdge_connectStep (g : Graph) (a b : String) (w : Int) (x y : String) (w' : Int) :
    containsEdge (connectStep g a b w) x y w' =
      (containsEdge g x y w' || (a == x && b == y)) := by
  simp [containsEdge, connectStep_edges, List.any_append]

theorem containsEdge_weight (g : Graph) (a b : String) (w w' : Int) :
    containsEdge g a b w = containsEdge g a b w' := rfl

theorem containsEdge_iff (g : Graph) (a b : String) (w : Int) :
    containsEdge g a b w = true ↔ ∃ e ∈ g.edges, e.from_ = a ∧ e.to_ = b := by
  simp [containsEdge]

theorem connect_succ (n : Nat) (g : Graph) (a b : String) (w : Int) :
    connect (n + 1) g a b w =
      if containsEdge g a b w || a == b then some (g, false)
      else
        if !(connectStep g a b w).isDirectional then
          match connect n (connectStep g a b w) b a w with
          | none => none
          | some (g5, _) => some (g5, true)
        else some (connectStep g a b w, true) := rfl

theorem connect_zero (g : Graph) (a b : String) (w : Int) : connect 0 g a b w = none := rfl

/-- Whatever a call of `connect` returns is the unrolled outcome. -/
theorem connect_eq_of_some (n : Nat) (g : Graph) (a b : String) (w : Int) (x : Graph × Bool)
    (h : connect n g a b w = some x) : x = connectResult g a b w := by
  cases n with
  | zero => simp [connect_zero] at h
  | succ n =>
    rw [connect_succ] at h
    simp only [connectResult]
    by_cases hc : (containsEdge g a b w || a == b) = true
    · simp only [hc, if_true] at h ⊢
      exact (Option.some.inj h).symm
    · simp only [hc] at h ⊢
      by_cases hd : (!(connectStep g a b w).isDirectional) = true
      · simp only [hd, if_true] at h ⊢
        cases n with
        | zero => simp [connect_zero] at h
        | succ n =>
          rw [connect_succ] at h
          by_cases hc2 : (containsEdge (connectStep g a b w) b a w || b == a) = true
          · simp only [hc2, if_true] at h ⊢
            exact (Option.some.inj h).symm
          · simp only [hc2] at h ⊢
            have hd2 : (!(connectStep (connectStep g a b w) b a w).isDirectional) = true := by
              rw [connectStep_isDirectional]
              exact hd
            simp only [hd2, if_true] at h
            cases n with
            | zero => simp [connect_zero] at h
            | succ n =>
              rw [connect_succ] at h
              have hc3 : (containsEdge (connectStep (connectStep g a b w) b a w) a b w
                  || a == b) = true := by
                simp [containsEdge_connectStep]
              simp only [hc3, if_true] at h
              exact (Option.some.inj h).symm
      · simp only [hd] at h ⊢
        exact (Option.some.inj h).symm

/-- Three nested calls are enough for `connect` to return. -/
theorem connect_eq (n : Nat) (g : Graph) (a b : String) (w : Int) :
    connect (n + 3) g a b w = some (connectResult g a b w) := by
  rw [connect_succ]
  simp only [connectResult]
  cases hc : (containsEdge g a b w || a == b)
  · cases hd : (!(connectStep g a b w).isDirectional)
    · simp
    · rw [connect_succ]
      cases hc2 : (containsEdge (connectStep g a b w) b a w || b == a)
      · have hd2 : (!(connectStep (connectStep g a b w) b a w).isDirectional) = true := by
          rw [connectStep_isDirectional]
          exact hd
        have hc3 : (containsEdge (connectStep (connectStep g a b w) b a w) a b w
            || a == b) = true := by
          simp [containsEdge_connectStep]
        rw [connect_succ]
        simp [hd2, hc3]
      · simp
  · simp

/-- The three ways a call of `connect` can end. -/
theorem connectResult_cases (g : Graph) (a b : String) (w : Int) :
    (connectResult g a b w = (g, false) ∧ (containsEdge g a b w = true ∨ a = b)) ∨
    (connectResult g a b w = (connectStep g a b w, true) ∧
      containsEdge g a b w = false ∧ a ≠ b ∧
      (g.isDirectional = true ∨ containsEdge g b a w = true)) ∨
    (connectResult g a b w = (connectStep (connectStep g a b w) b a w, true) ∧
      containsEdge g a b w = false ∧ a ≠ b ∧
      g.isDirectional = false ∧ containsEdge g b a w = false) := by
  simp only [connectResult]
  cases hc : containsEdge g a b w
  · by_cases hab : a = b
    · left
      simp [hab]
    · have hba : ¬ b = a := fun e => hab e.symm
      right
      cases hd : g.isDirectional
      · cases hm : containsEdge g b a w
        · right
          simp [hab, hba, connectStep_isDirectional, hd, containsEdge_connectStep, hm]
        · left
          simp [hab, connectStep_isDirectional, hd, containsEdge_connectStep, hm]
      · left
        simp [hab, connectStep_isDirectional, hd]
  · left
    simp

theorem connect_of_guard (n : Nat) (g : Graph) (a b : String) (w : Int)
    (h : containsEdge g a b w = true ∨ a = b) : connect (n + 1) g a b w = some (g, false) := by
  rw [connect_succ]
  rcases h with h | h
  · simp [h]
  · simp [h]

/-- C1: `connect(from, to, w)` returns (three nested calls suffice), and it returns false
exactly when `from == to` or an edge record `from -> to` exists, whatever its weight; in
that case the graph is the same graph, with the same vertices, edge records, adjacency
lists and weights.  In particular, after a successful `connect(A, B, w)` the record
`(A, B, w)` is stored, every record `A -> B` has weight `w`, and `connect(A, B, w2)`
returns false and changes nothing for every `w2`; and `connect(A, A, w)` returns false
and leaves the graph, so also its vertices, as it was. -/
theorem connect_rejects (g : Graph) (a b : String) (w : Int) :
    (∀ n, ∃ g' r, connect (n + 3) g a b w = some (g', r)) ∧
    ((a = b ∨ ∃ e ∈ g.edges, e.from_ = a ∧ e.to_ = b) →
      ∀ n, connect (n + 1) g a b w = some (g, false)) ∧
    (∀ n g' r, connect n g a b w = some (g', r) →
      (r = false ↔ (a = b ∨ ∃ e ∈ g.edges, e.from_ = a ∧ e.to_ = b)) ∧
      (r = false → g' = g)) ∧
    (∀ n g', connect n g a b w = some (g', true) →
      Edge.mk a b w ∈ g'.edges ∧
      (∀ e ∈ g'.edges, e.from_ = a → e.to_ = b → e.weight = w) ∧
      ∀ m w2, connect (m + 1) g' a b w2 = some (g', false)) ∧
    (∀ n, connect (n + 1) g a a w = some (g, false)) := by
  refine ⟨fun n => ⟨_, _, connect_eq n g a b w⟩, ?_, ?_, ?_, ?_⟩
  · intro h n
    apply connect_of_guard
    rcases h with h | h
    · exact Or.inr h
    · exact Or.inl ((containsEdge_iff g a b w).2 h)
  · intro n g' r h
    have hx := connect_eq_of_some n g a b w _ h
    rcases connectResult_cases g a b w with ⟨e, hc⟩ | ⟨e, hc, hab, -⟩ | ⟨e, hc, hab, -⟩
    · rw [e] at hx
      have h1 : g' = g := (Prod.mk.inj hx).1
      have h2 : r = false := (Prod.mk.inj hx).2
      refine ⟨⟨fun _ => ?_, fun _ => h2⟩, fun _ => h1⟩
      rcases hc with hc | hc
      · exact Or.inr ((containsEdge_iff g a b w).1 hc)
      · exact Or.inl hc
    · rw [e] at hx
      obtain ⟨rfl, rfl⟩ := Prod.mk.inj hx
      refine ⟨⟨fun h => by simp at h, ?_⟩, fun h => by simp at h⟩
      rintro (h | h)
      · exact absurd h hab
      · rw [(containsEdge_iff g a b w).2 h] at hc
        simp at hc
    · rw [e] at hx
      obtain ⟨rfl, rfl⟩ := Prod.mk.inj hx
      refine ⟨⟨fun h => by simp at h, ?_⟩, fun h => by simp at h⟩
      rintro (h | h)
      · exact absurd h hab
      · rw [(containsEdge_iff g a b w).2 h] at hc
        simp at hc
  · intro n g' h
    have hx := connect_eq_of_some n g a b w _ h
    have hfresh : ∀ e ∈ g.edges, e.from_ = a → e.to_ = b → containsEdge g a b w = false →
        e.weight = w := by
      intro e he h1 h2 hc
      rw [(containsEdge_iff g a b w).2 ⟨e, he, h1, h2⟩] at hc
      simp at hc
    rcases connectResult_cases g a b w with ⟨e, hc⟩ | ⟨e, hc, hab, -⟩ | ⟨e, hc, hab, -⟩
    · rw [e] at hx
      simp at hx
    · rw [e] at hx
      obtain ⟨rfl, -⟩ := Prod.mk.inj hx
      refine ⟨by simp [connectStep_edges], ?_, ?_⟩
      · intro e he h1 h2
        rw [connectStep_edges] at he
        rcases List.mem_append.1 he with he | he
        · exact hfresh e he h1 h2 hc
        · rw [List.mem_singleton.1 he]
      · intro m w2
        apply connect_of_guard
        left
        simp [containsEdge_connectStep]
    · rw [e] at hx
      obtain ⟨rfl, -⟩ := Prod.mk.inj hx
      refine ⟨by simp [connectStep_edges], ?_, ?_⟩
      · intro e he h1 h2
        rw [connectStep_edges, connectStep_edges] at he
        rcases List.mem_append.1 he with he | he
        · rcases List.mem_append.1 he with he | he
          · exact hfresh e he h1 h2 hc
          · rw [List.mem_singleton.1 he]
        · rw [List.mem_singleton.1 he] at h1
          exact absurd h1.symm hab
      · intro m w2
        apply connect_of_guard
        left
        simp [containsEdge_connectStep]
  · intro n
    exact connect_of_guard n g a a w (Or.inr rfl)

theorem vertexDegree_of_mapAt (g : Graph) (l : String) (v : Vertex)
    (h : mapAt g.vertices l = some v) : vertexDegree g l = (v.connectedVerts.length : Int) := by
  have hc : contains g l = true := (contains_true_iff g l).2 ⟨v, h⟩
  simp [vertexDegree, hc, h]

theorem vertexDegree_of_absent (g : Graph) (l : String)
    (h : mapAt g.vertices l = none) : vertexDegree g l = -1 := by
  have hc : contains g l = false := (contains_false_iff g l).2 h
  simp [vertexDegree, hc]

/-- C2, as the code has it: on a directed graph, for `from != to` without an edge record
`from -> to`, `connect(from, to, w)` returns true; afterwards both labels are vertices
(a missing one was created without connections, an existing one keeps its binding), the
edge collection is the old one with the record `(from, to, w)` appended, the adjacency
list of `from` is the old one (empty for a created vertex) with `(to, w)` appended at
the end, every other vertex is bound as before, and `edgesSize()` has grown by exactly
one.  `vertexDegree(from)` has grown by exactly one when `from` was a vertex before the
call; when the call created it, `vertexDegree(from)` goes from `-1` to `1`. -/
theorem connect_directed_new_edge (g : Graph) (a b : String) (w : Int)
    (hd : g.isDirectional = true) (hab : a ≠ b)
    (hne : ¬ ∃ e ∈ g.edges, e.from_ = a ∧ e.to_ = b) :
    ∃ g', (∀ n, connect (n + 1) g a b w = some (g', true)) ∧
      contains g' a = true ∧ contains g' b = true ∧
      g'.edges = g.edges ++ [Edge.mk a b w] ∧
      (∀ v, mapAt g.vertices a = some v →
        mapAt g'.vertices a = some { v with connectedVerts := v.connectedVerts ++ [(b, w)] }) ∧
      (mapAt g.vertices a = none → mapAt g'.vertices a = some (Vertex.mk a [(b, w)])) ∧
      (∀ v, mapAt g.vertices b = some v → mapAt g'.vertices b = some v) ∧
      (mapAt g.vertices b = none → mapAt g'.vertices b = some (Vertex.mk b [])) ∧
      (∀ l, l ≠ a → l ≠ b → mapAt g'.vertices l = mapAt g.vertices l) ∧
      edgesSize g' = edgesSize g + 1 ∧
      (contains g a = true → vertexDegree g' a = vertexDegree g a + 1) ∧
      (contains g a = false → vertexDegree g a = -1 ∧ vertexDegree g' a = 1) ∧
      g'.isDirectional = g.isDirectional ∧ g'.visited = g.visited := by
  have hc : containsEdge g a b w = false := by
    cases h : containsEdge g a b w
    · rfl
    · exact absurd ((containsEdge_iff g a b w).1 h) hne
  have hba : ¬ b = a := fun e => hab e.symm
  have hA : ∀ v, mapAt g.vertices a = some v →
      mapAt (connectStep g a b w).vertices a =
        some { v with connectedVerts := v.connectedVerts ++ [(b, w)] } := by
    intro v hv
    simp [mapAt_connectStep, hv]
  have hA' : mapAt g.vertices a = none →
      mapAt (connectStep g a b w).vertices a = some (Vertex.mk a [(b, w)]) := by
    intro hv
    simp [mapAt_connectStep, hv]
  have hB : ∀ v, mapAt g.vertices b = some v →
      mapAt (connectStep g a b w).vertices b = some v := by
    intro v hv
    simp [mapAt_connectStep, hv, hab]
  have hB' : mapAt g.vertices b = none →
      mapAt (connectStep g a b w).vertices b = some (Vertex.mk b []) := by
    intro hv
    simp [mapAt_connectStep, hv, hab]
  refine ⟨connectStep g a b w, ?_, ?_, ?_, connectStep_edges g a b w, hA, hA', hB, hB', ?_, ?_,
    ?_, ?_, connectStep_isDirectional g a b w, connectStep_visited g a b w⟩
  · intro n
    rw [connect_succ]
    simp [hc, hab, connectStep_isDirectional, hd]
  · rw [contains_true_iff]
    cases hv : mapAt g.vertices a with
    | none => exact ⟨_, hA' hv⟩
    | some v => exact ⟨_, hA v hv⟩
  · rw [contains_true_iff]
    cases hv : mapAt g.vertices b with
    | none => exact ⟨_, hB' hv⟩
    | some v => exact ⟨_, hB v hv⟩
  · intro l h1 h2
    have h1' : ¬ a = l := fun e => h1 e.symm
    have h2' : ¬ b = l := fun e => h2 e.symm
    simp [mapAt_connectStep, h1', h2']
  · simp [edgesSize, connectStep_edges]
  · intro hca
    obtain ⟨v, hv⟩ := (contains_true_iff g a).1 hca
    rw [vertexDegree_of_mapAt _ _ _ (hA v hv), vertexDegree_of_mapAt _ _ _ hv]
    simp
  · intro hca
    have hv := (contains_false_iff g a).1 hca
    rw [vertexDegree_of_mapAt _ _ _ (hA' hv), vertexDegree_of_absent _ _ hv]
    simp

/-- C2 fails as stated for a `from` that the call creates: on the empty directed graph,
`connect("a", "b", 5)` returns true and takes `vertexDegree("a")` from `-1` to `1`, two
more and not one more. -/
theorem connect_degree_of_created_vertex :
    (Graph.empty true).isDirectional = true ∧ "a" ≠ "b" ∧
    (¬ ∃ e ∈ (Graph.empty true).edges, e.from_ = "a" ∧ e.to_ = "b") ∧
    ∃ g', connect 1 (Graph.empty true) "a" "b" 5 = some (g', true) ∧
      vertexDegree (Graph.empty true) "a" = -1 ∧ vertexDegree g' "a" = 1 ∧
      vertexDegree g' "a" ≠ vertexDegree (Graph.empty true) "a" + 1 := by
  refine ⟨rfl, by decide, by simp [Graph.empty], _, rfl, by decide, by decide, by decide⟩

/-- The amended C2 at the first call of `testGraphBasic` after the five `add` calls. -/
theorem connect_directed_new_edge_witness :
    ∃ g', (∀ n, connect (n + 1) ((add ((add (Graph.empty true) "a").1) "b").1) "a" "b" 10
        = some (g', true)) ∧
      g'.edges = [Edge.mk "a" "b" 10] ∧
      vertexDegree g' "a" = vertexDegree ((add ((add (Graph.empty true) "a").1) "b").1) "a" + 1 := by
  obtain ⟨g', h1, -, -, h4, -, -, -, -, -, -, h11, -⟩ :=
    connect_directed_new_edge ((add ((add (Graph.empty true) "a").1) "b").1) "a" "b" 10
      (by decide) (by decide) (by decide)
  exact ⟨g', h1, h4, h11 (by decide)⟩

/-! ## The erasing loops of `disconnect` -/

/-- A loop that meets no match from index `i` on, and whose stale value does not match if
it is ever read, leaves the vector as it is. -/
theorem eraseLoopFrom_of_no_match {α : Type} (p : α → Bool) (last : α) :
    ∀ (k i : Nat) (v : List α),
      (∀ j s, i ≤ j → v[j]? = some s → p s = false) →
      (0 < k → v.length < i + k → p last = false) →
      eraseLoopFrom p last k i v = some v := by
  intro k
  induction k with
  | zero => intro i v _ _; rfl
  | succ k ih =>
    intro i v h1 h2
    simp only [eraseLoopFrom]
    cases hs : v[i]? with
    | some s =>
      have hp : p s = false := h1 i s (Nat.le_refl i) hs
      simp only [hp]
      apply ih
      · intro j s' hj
        exact h1 j s' (by omega)
      · intro _ hl
        exact h2 (by omega) (by omega)
    | none =>
      have hlen : v.length ≤ i := by
        rcases Nat.lt_or_ge i v.length with hlt | hge
        · rw [List.getElem?_eq_getElem hlt] at hs
          simp at hs
        · exact hge
      have hp : p last = false := h2 (by omega) (by omega)
      simp only [hp]
      apply ih
      · intro j s' hj
        exact h1 j s' (by omega)
      · intro _ _
        exact hp

theorem eraseLoopFrom_filter {α : Type} (p : α → Bool) (last : α) :
    ∀ (suf pre : List α),
      (∀ x ∈ pre, p x = false) →
      suf.Pairwise (fun x y => ¬ (p x = true ∧ p y = true)) →
      (∀ h : suf ≠ [], last = suf.getLast h) →
      eraseLoopFrom p last suf.length pre.length (pre ++ suf) =
        some ((pre ++ suf).filter (fun x => !p x)) := by
  intro suf
  induction suf with
  | nil =>
    intro pre hpre _ _
    simp only [List.length_nil, eraseLoopFrom, List.append_nil]
    congr 1
    symm
    apply List.filter_eq_self.2
    intro x hx
    simp [hpre x hx]
  | cons x suf ih =>
    intro pre hpre hpw hlast
    have hget : (pre ++ x :: suf)[pre.length]? = some x := by
      rw [List.getElem?_append_right (Nat.le_refl _)]
      simp
    simp only [List.length_cons, eraseLoopFrom, hget]
    have hfpre : pre.filter (fun x => !p x) = pre := by
      apply List.filter_eq_self.2
      intro y hy
      simp [hpre y hy]
    cases hp : p x
    · simp only [Bool.false_eq_true, if_false]
      have h := ih (pre ++ [x])
        (by
          intro y hy
          rcases List.mem_append.1 hy with hy | hy
          · exact hpre y hy
          · rw [List.mem_singleton.1 hy]
            exact hp)
        (List.Pairwise.of_cons hpw)
        (by
          intro hne
          rw [hlast (List.cons_ne_nil x suf), List.getLast_cons hne])
      simp only [List.length_append, List.length_singleton, List.append_assoc,
        List.singleton_append] at h
      exact h
    · simp only [if_true]
      have hsuf : ∀ y ∈ suf, p y = false := by
        intro y hy
        have := List.rel_of_pairwise_cons hpw hy
        cases hy' : p y
        · rfl
        · exact absurd ⟨hp, hy'⟩ this
      have herase : (pre ++ x :: suf).eraseIdx pre.length = pre ++ suf := by
        rw [List.eraseIdx_append_of_length_le (Nat.le_refl _)]
        simp
      rw [herase, eraseLoopFrom_of_no_match]
      · congr 1
        have hfsuf : suf.filter (fun x => !p x) = suf := by
          apply List.filter_eq_self.2
          intro y hy
          simp [hsuf y hy]
        rw [List.filter_append, hfpre, List.filter_cons, hfsuf]
        simp only [hp, Bool.not_true, Bool.false_eq_true, if_false]
      · intro j s hj hs
        have hj' : pre.length ≤ j := by omega
        rw [List.getElem?_append_right hj'] at hs
        exact hsuf s (List.getElem?_mem hs)
      · intro hk _
        have hne : suf ≠ [] := by
          intro e
          rw [e] at hk
          simp at hk
        rw [hlast (List.cons_ne_nil x suf), List.getLast_cons hne]
        exact hsuf _ (List.getLast_mem hne)

/-- On a vector with at most one matching element the loop returns, and what it leaves
are the elements that do not match, in their order. -/
theorem eraseLoop_filter {α : Type} (p : α → Bool) (v : List α)
    (h : v.Pairwise (fun x y => ¬ (p x = true ∧ p y = true))) :
    eraseLoop p v = some (v.filter (fun x => !p x)) := by
  unfold eraseLoop
  cases hl : v.getLast? with
  | none =>
    have : v = [] := List.getLast?_eq_none_iff.1 hl
    subst this
    rfl
  | some last =>
    have h' := eraseLoopFrom_filter p last v [] (by simp) h (by
      intro hne
      rw [List.getLast?_eq_getLast _ hne] at hl
      exact (Option.some.inj hl).symm)
    simpa using h'

/-! ## The representation invariant -/

theorem wellFormed_empty (d : Bool) : WellFormed (Graph.empty d) := by
  constructor <;> simp [Graph.empty, mapAt]

theorem no_edge_from_absent (g : Graph) (hg : WellFormed g) (l : String)
    (h : mapAt g.vertices l = none) : g.edges.filter (fun e => e.from_ == l) = [] := by
  apply List.filter_eq_nil_iff.2
  intro e he
  have hc := (hg.endpoints e he).1
  intro hl
  have hl' : e.from_ = l := by simpa using hl
  rw [hl', (contains_false_iff g l).2 h] at hc
  simp at hc

/-- The connections of the vertex bound to `l`, or of the fresh vertex `add` would
create, are the edge records leaving `l`. -/
theorem adjacency_getD (g : Graph) (hg : WellFormed g) (l : String) :
    ((mapAt g.vertices l).getD (Vertex.mk l [])).connectedVerts =
      (g.edges.filter (fun e => e.from_ == l)).map (fun e => (e.to_, e.weight)) := by
  cases h : mapAt g.vertices l with
  | none => simp [no_edge_from_absent g hg l h]
  | some v => simpa using hg.adjacency l v h

theorem label_getD (g : Graph) (hg : WellFormed g) (l : String) :
    ((mapAt g.vertices l).getD (Vertex.mk l [])).label = l := by
  cases h : mapAt g.vertices l with
  | none => rfl
  | some v => simpa using hg.label_eq l v h

theorem keys_nodup_add (g : Graph) (l : String)
    (h : (g.vertices.map Prod.fst).Nodup) : ((add g l).1.vertices.map Prod.fst).Nodup := by
  cases hl : mapAt g.vertices l with
  | some v =>
    rw [add_of_present g l ((contains_true_iff g l).2 ⟨v, hl⟩)]
    exact h
  | none =>
    rw [add_of_absent g l hl]
    obtain ⟨l₁, l₂, e₁, e₂⟩ := mapAssign_new g.vertices l (Vertex.mk l []) hl
    have hnot : l ∉ g.vertices.map Prod.fst := (mapAt_eq_none_iff _ _).1 hl
    simp only [e₂]
    rw [e₁] at h hnot
    simp only [List.map_append, List.map_cons] at h hnot ⊢
    exact List.nodup_middle.2 (List.nodup_cons.2 ⟨hnot, h⟩)

theorem contains_add (g : Graph) (a l : String) :
    contains (add g a).1 l = (decide (a = l) || contains g l) := by
  rw [contains_eq_isSome, contains_eq_isSome, mapAt_add]
  by_cases h : a = l
  · simp [h]
  · simp [h]

theorem wellFormed_add (g : Graph) (hg : WellFormed g) (a : String) :
    WellFormed (add g a).1 := by
  refine ⟨keys_nodup_add g a hg.keys_nodup, ?_, ?_, ?_, ?_, ?_⟩
  · intro l v hv
    rw [mapAt_add] at hv
    by_cases h : a = l
    · subst h
      simp only [if_true] at hv
      rw [← Option.some.inj hv]
      exact label_getD g hg a
    · simp only [h, if_false] at hv
      exact hg.label_eq l v hv
  · rw [add_edges]
    exact hg.edges_unique
  · rw [add_edges]
    exact hg.no_self_loop
  · intro l v hv
    rw [mapAt_add] at hv
    rw [add_edges]
    by_cases h : a = l
    · subst h
      simp only [if_true] at hv
      rw [← Option.some.inj hv]
      exact adjacency_getD g hg a
    · simp only [h, if_false] at hv
      exact hg.adjacency l v hv
  · intro e he
    rw [add_edges] at he
    have := hg.endpoints e he
    simp [contains_add, this.1, this.2]

theorem ensure_eq_add (g : Graph) (a : String) :
    (if !contains g a then (add g a).1 else g) = (add g a).1 := by
  cases hc : contains g a
  · simp
  · simp [add, hc]

theorem connectStep_keys (g : Graph) (a b : String) (w : Int) :
    (connectStep g a b w).vertices.map Prod.fst =
      (add (add g a).1 b).1.vertices.map Prod.fst := by
  simp only [connectStep, ensure_eq_add, keys_mapModify]

theorem contains_connectStep (g : Graph) (a b : String) (w : Int) (l : String) :
    contains (connectStep g a b w) l = (decide (a = l) || decide (b = l) || contains g l) := by
  rw [contains_eq_isSome, contains_eq_isSome, mapAt_connectStep]
  by_cases h1 : a = l
  · simp [h1]
  · by_cases h2 : b = l
    · simp [h1, h2]
    · simp [h1, h2]

theorem wellFormed_connectStep (g : Graph) (hg : WellFormed g) (a b : String) (w : Int)
    (hab : a ≠ b) (hc : containsEdge g a b w = false) : WellFormed (connectStep g a b w) := by
  have hno : ∀ e ∈ g.edges, ¬ (e.from_ = a ∧ e.to_ = b) := by
    intro e he h
    rw [(containsEdge_iff g a b w).2 ⟨e, he, h⟩] at hc
    simp at hc
  refine ⟨?_, ?_, ?_, ?_, ?_, ?_⟩
  · rw [connectStep_keys]
    exact keys_nodup_add _ _ (keys_nodup_add _ _ hg.keys_nodup)
  · intro l v hv
    rw [mapAt_connectStep] at hv
    by_cases h1 : a = l
    · subst h1
      simp only [if_true] at hv
      rw [← Option.some.inj hv]
      exact label_getD g hg a
    · simp only [h1, if_false] at hv
      by_cases h2 : b = l
      · subst h2
        simp only [if_true] at hv
        rw [← Option.some.inj hv]
        exact label_getD g hg b
      · simp only [h2, if_false] at hv
        exact hg.label_eq l v hv
  · rw [connectStep_edges]
    apply List.pairwise_append.2
    refine ⟨hg.edges_unique, List.pairwise_singleton _ _, ?_⟩
    intro e he e' he'
    rw [List.mem_singleton.1 he']
    exact hno e he
  · intro e he
    rw [connectStep_edges] at he
    rcases List.mem_append.1 he with he | he
    · exact hg.no_self_loop e he
    · rw [List.mem_singleton.1 he]
      exact hab
  · intro l v hv
    rw [mapAt_connectStep] at hv
    rw [connectStep_edges, List.filter_append, List.map_append]
    by_cases h1 : a = l
    · subst h1
      simp only [if_true] at hv
      rw [← Option.some.inj hv]
      simp [adjacency_getD g hg a]
    · simp only [h1, if_false] at hv
      have hnil : [Edge.mk a b w].filter (fun e => e.from_ == l) = [] := by
        simp [h1]
      rw [hnil, List.map_nil, List.append_nil]
      by_cases h2 : b = l
      · subst h2
        simp only [if_true] at hv
        rw [← Option.some.inj hv]
        exact adjacency_getD g hg b
      · simp only [h2, if_false] at hv
        exact hg.adjacency l v hv
  · intro e he
    rw [connectStep_edges] at he
    rcases List.mem_append.1 he with he | he
    · have := hg.endpoints e he
      simp [contains_connectStep, this.1, this.2]
    · rw [List.mem_singleton.1 he]
      simp [contains_connectStep]

theorem wellFormed_connectResult (g : Graph) (hg : WellFormed g) (a b : String) (w : Int) :
    WellFormed (connectResult g a b w).1 := by
  rcases connectResult_cases g a b w with ⟨e, -⟩ | ⟨e, hc, hab, -⟩ | ⟨e, hc, hab, -, hm⟩
  · rw [e]
    exact hg
  · rw [e]
    exact wellFormed_connectStep g hg a b w hab hc
  · rw [e]
    apply wellFormed_connectStep _ (wellFormed_connectStep g hg a b w hab hc) _ _ _
      (fun h => hab h.symm)
    rw [containsEdge_connectStep, hm]
    have : ¬ a = b := hab
    simp [this]

/-! ## `disconnect` -/

theorem mapAt_removeEdge (g : Graph) (a b l : String) :
    mapAt (removeEdge g a b).vertices l =
      if a = l then (mapAt g.vertices a).map (fun u =>
        { u with connectedVerts := u.connectedVerts.filter (fun s => !(s.1 == b)) })
      else mapAt g.vertices l := by
  simp only [removeEdge, mapAt_mapModify]

theorem contains_removeEdge (g : Graph) (a b l : String) :
    contains (removeEdge g a b) l = contains g l := by
  rw [contains_eq_isSome, contains_eq_isSome, mapAt_removeEdge]
  by_cases h : a = l
  · subst h
    simp
  · simp [h]

theorem containsEdge_removeEdge (g : Graph) (a b x y : String) (w : Int) :
    containsEdge (removeEdge g a b) x y w =
      (containsEdge g x y w && !(x == a && y == b)) := by
  simp only [containsEdge, removeEdge, List.any_filter]
  induction g.edges with
  | nil => simp
  | cons e es ih =>
    simp only [List.any_cons, ih]
    by_cases h1 : e.from_ = x
    · by_cases h2 : e.to_ = y
      · subst h1 h2
        cases h3 : (e.from_ == a && e.to_ == b) <;>
          cases h4 : (es.any fun s => s.from_ == e.from_ && s.to_ == e.to_) <;> simp
      · have : (e.to_ == y) = false := by simpa using h2
        simp [this]
    · have : (e.from_ == x) = false := by simpa using h1
      simp [this]

theorem wellFormed_removeEdge (g : Graph) (hg : WellFormed g) (a b : String) :
    WellFormed (removeEdge g a b) := by
  refine ⟨?_, ?_, ?_, ?_, ?_, ?_⟩
  · simp only [removeEdge, keys_mapModify]
    exact hg.keys_nodup
  · intro l v hv
    rw [mapAt_removeEdge] at hv
    by_cases h : a = l
    · subst h
      simp only [if_true] at hv
      cases hu : mapAt g.vertices a with
      | none => simp [hu] at hv
      | some u =>
        rw [hu] at hv
        rw [← Option.some.inj hv]
        exact hg.label_eq a u hu
    · simp only [h, if_false] at hv
      exact hg.label_eq l v hv
  · exact List.Pairwise.filter _ hg.edges_unique
  · intro e he
    exact hg.no_self_loop e (List.mem_filter.1 he).1
  · intro l v hv
    rw [mapAt_removeEdge] at hv
    simp only [removeEdge, List.filter_filter]
    by_cases h : a = l
    · subst h
      simp only [if_true] at hv
      cases hu : mapAt g.vertices a with
      | none => simp [hu] at hv
      | some u =>
        rw [hu] at hv
        rw [← Option.some.inj hv]
        simp only [Option.map_some', hg.adjacency a u hu, List.filter_map, List.filter_filter]
        congr 1
        apply List.filter_congr
        intro e _
        cases h1 : (e.from_ == a) <;> cases h2 : (e.to_ == b) <;> simp [h1, h2]
    · simp only [h, if_false] at hv
      rw [hg.adjacency l v hv]
      congr 1
      apply List.filter_congr
      intro e _
      by_cases h1 : e.from_ = l
      · have h2 : ¬ l = a := fun e' => h e'.symm
        simp [h1, h2]
      · simp [h1]
  · intro e he
    have := hg.endpoints e (List.mem_filter.1 he).1
    simp [contains_removeEdge, this.1, this.2]

/-- On a well-formed graph with the edge `from -> to`, both loops of `disconnect` find
exactly one match and return. -/
theorem disconnectStep_eq (g : Graph) (hg : WellFormed g) (a b : String)
    (hc : containsEdge g a b 0 = true) : disconnectStep g a b = some (removeEdge g a b) := by
  obtain ⟨e, he, h1, h2⟩ := (containsEdge_iff g a b 0).1 hc
  have hca : contains g a = true := h1 ▸ (hg.endpoints e he).1
  obtain ⟨v, hv⟩ := (contains_true_iff g a).1 hca
  have hE : eraseLoop (fun s : Edge => s.from_ == a && s.to_ == b) g.edges =
      some (g.edges.filter (fun s => !(s.from_ == a && s.to_ == b))) := by
    apply eraseLoop_filter
    apply hg.edges_unique.imp
    intro x y hxy hp
    apply hxy
    simp only [Bool.and_eq_true, beq_iff_eq] at hp
    exact ⟨hp.1.1.trans hp.2.1.symm, hp.1.2.trans hp.2.2.symm⟩
  have hV : eraseLoop (fun s : String × Int => s.1 == b) v.connectedVerts =
      some (v.connectedVerts.filter (fun s => !(s.1 == b))) := by
    apply eraseLoop_filter
    rw [hg.adjacency a v hv, List.pairwise_map]
    apply (hg.edges_unique.filter _).imp_of_mem
    intro x y hx hy hxy hp
    apply hxy
    have hx' := (List.mem_filter.1 hx).2
    have hy' := (List.mem_filter.1 hy).2
    simp only [beq_iff_eq] at hp hx' hy'
    exact ⟨hx'.trans hy'.symm, hp.1.trans hp.2.symm⟩
  simp only [disconnectStep, hE, hv, hV, removeEdge]
  congr 2
  have hmod : ∀ (m : List (String × Vertex)), mapAt m a = some v →
      mapModify m a (fun u => { u with
        connectedVerts := v.connectedVerts.filter (fun s => !(s.1 == b)) }) =
      mapModify m a (fun u => { u with
        connectedVerts := u.connectedVerts.filter (fun s => !(s.1 == b)) }) := by
    intro m
    induction m with
    | nil => intro _; rfl
    | cons x m ih =>
      obtain ⟨k, u⟩ := x
      intro hm
      simp only [mapModify]
      by_cases hk : k = a
      · simp only [mapAt, hk, if_true] at hm
        rw [Option.some.inj hm]
        simp [hk]
      · simp only [mapAt, hk, if_false] at hm
        simp only [hk, if_false, ih hm]
  exact hmod g.vertices hv

theorem disconnect_succ (n : Nat) (g : Graph) (a b : String) :
    disconnect (n + 1) g a b =
      if !containsEdge g a b 0 || a == b then some (g, false)
      else
        match disconnectStep g a b with
        | none => none
        | some g2 =>
          if !g2.isDirectional then
            match disconnect n g2 b a with
            | none => none
            | some (g3, _) => some (g3, true)
          else some (g2, true) := rfl

theorem disconnect_zero (g : Graph) (a b : String) : disconnect 0 g a b = none := rfl

theorem disconnect_of_guard (n : Nat) (g : Graph) (a b : String)
    (h : containsEdge g a b 0 = false ∨ a = b) : disconnect (n + 1) g a b = some (g, false) := by
  rw [disconnect_succ]
  rcases h with h | h
  · simp [h]
  · simp [h]

/-- One call of `disconnect` on a well-formed graph, its loops replaced by their
result. -/
theorem disconnect_succ_wf (n : Nat) (g : Graph) (hg : WellFormed g) (a b : String) :
    disconnect (n + 1) g a b =
      if !containsEdge g a b 0 || a == b then some (g, false)
      else
        if !(removeEdge g a b).isDirectional then
          match disconnect n (removeEdge g a b) b a with
          | none => none
          | some (g3, _) => some (g3, true)
        else some (removeEdge g a b, true) := by
  rw [disconnect_succ]
  cases hc : containsEdge g a b 0
  · simp
  · simp only [disconnectStep_eq g hg a b hc]

/-- The three ways a call of `disconnect` can end. -/
theorem disconnectResult_cases (g : Graph) (a b : String) :
    (disconnectResult g a b = (g, false) ∧ (containsEdge g a b 0 = false ∨ a = b)) ∨
    (disconnectResult g a b = (removeEdge g a b, true) ∧
      containsEdge g a b 0 = true ∧ a ≠ b ∧
      (g.isDirectional = true ∨ containsEdge g b a 0 = false)) ∨
    (disconnectResult g a b = (removeEdge (removeEdge g a b) b a, true) ∧
      containsEdge g a b 0 = true ∧ a ≠ b ∧
      g.isDirectional = false ∧ containsEdge g b a 0 = true) := by
  simp only [disconnectResult]
  cases hc : containsEdge g a b 0
  · left
    simp
  · by_cases hab : a = b
    · left
      simp [hab]
    · have hba : ¬ b = a := fun e => hab e.symm
      right
      have hdir : (removeEdge g a b).isDirectional = g.isDirectional := rfl
      cases hd : g.isDirectional
      · cases hm : containsEdge g b a 0
        · left
          simp [hab, hdir, hd, containsEdge_removeEdge, hm]
        · right
          simp [hab, hba, hdir, hd, containsEdge_removeEdge, hm]
      · left
        simp [hab, hdir, hd]

/-- Whatever a call of `disconnect` returns on a well-formed graph is the unrolled
outcome. -/
theorem disconnect_eq_of_some (n : Nat) (g : Graph) (hg : WellFormed g) (a b : String)
    (x : Graph × Bool) (h : disconnect n g a b = some x) : x = disconnectResult g a b := by
  have hg2 := wellFormed_removeEdge g hg a b
  have hg3 := wellFormed_removeEdge _ hg2 b a
  have hdir : (removeEdge g a b).isDirectional = g.isDirectional := rfl
  have hdir2 : (removeEdge (removeEdge g a b) b a).isDirectional = g.isDirectional := rfl
  cases n with
  | zero => simp [disconnect_zero] at h
  | succ n =>
    rw [disconnect_succ_wf n g hg] at h
    simp only [disconnectResult]
    cases hc : (!containsEdge g a b 0 || a == b)
    · simp only [hc] at h ⊢
      cases hd : (!(removeEdge g a b).isDirectional)
      · simp only [hd] at h ⊢
        simp at h ⊢
        exact h.symm
      · simp only [hd, if_true] at h ⊢
        cases n with
        | zero => simp [disconnect_zero] at h
        | succ n =>
          rw [disconnect_succ_wf n _ hg2] at h
          cases hc2 : (!containsEdge (removeEdge g a b) b a 0 || b == a)
          · simp only [hc2] at h ⊢
            have hd2 : (!(removeEdge (removeEdge g a b) b a).isDirectional) = true := by
              rw [hdir2, ← hdir]
              exact hd
            simp only [hd2, if_true] at h
            cases n with
            | zero => simp [disconnect_zero] at h
            | succ n =>
              rw [disconnect_succ_wf n _ hg3] at h
              have hc3 : (!containsEdge (removeEdge (removeEdge g a b) b a) a b 0
                  || a == b) = true := by
                simp [containsEdge_removeEdge]
              simp only [hc3, if_true] at h
              simp at h ⊢
              exact h.symm
          · simp only [hc2, if_true] at h ⊢
            simp at h ⊢
            exact h.symm
    · simp only [hc, if_true] at h ⊢
      exact (Option.some.inj h).symm

/-- Three nested calls are enough for `disconnect` to return on a well-formed graph. -/
theorem disconnect_eq (n : Nat) (g : Graph) (hg : WellFormed g) (a b : String) :
    disconnect (n + 3) g a b = some (disconnectResult g a b) := by
  have hg2 := wellFormed_removeEdge g hg a b
  have hg3 := wellFormed_removeEdge _ hg2 b a
  have hdir : (removeEdge g a b).isDirectional = g.isDirectional := rfl
  have hdir2 : (removeEdge (removeEdge g a b) b a).isDirectional = g.isDirectional := rfl
  rw [disconnect_succ_wf _ g hg]
  simp only [disconnectResult]
  cases hc : (!containsEdge g a b 0 || a == b)
  · cases hd : (!(removeEdge g a b).isDirectional)
    · simp
    · rw [disconnect_succ_wf _ _ hg2]
      cases hc2 : (!containsEdge (removeEdge g a b) b a 0 || b == a)
      · have hd2 : (!(removeEdge (removeEdge g a b) b a).isDirectional) = true := by
          rw [hdir2, ← hdir]
          exact hd
        have hc3 : (!containsEdge (removeEdge (removeEdge g a b) b a) a b 0
            || a == b) = true := by
          simp [containsEdge_removeEdge]
        rw [disconnect_succ_wf _ _ hg3]
        simp [hd2, hc3]
      · simp
  · simp

theorem wellFormed_disconnectResult (g : Graph) (hg : WellFormed g) (a b : String) :
    WellFormed (disconnectResult g a b).1 := by
  rcases disconnectResult_cases g a b with ⟨e, -⟩ | ⟨e, -⟩ | ⟨e, -⟩
  · rw [e]
    exact hg
  · rw [e]
    exact wellFormed_removeEdge g hg a b
  · rw [e]
    exact wellFormed_removeEdge _ (wellFormed_removeEdge g hg a b) b a

theorem connectResult_isDirectional (g : Graph) (a b : String) (w : Int) :
    (connectResult g a b w).1.isDirectional = g.isDirectional := by
  rcases connectResult_cases g a b w with ⟨e, -⟩ | ⟨e, -⟩ | ⟨e, -⟩ <;> rw [e] <;>
    simp [connectStep_isDirectional]

theorem disconnectResult_isDirectional (g : Graph) (a b : String) :
    (disconnectResult g a b).1.isDirectional = g.isDirectional := by
  rcases disconnectResult_cases g a b with ⟨e, -⟩ | ⟨e, -⟩ | ⟨e, -⟩ <;> rw [e] <;> rfl

/-- Every reachable graph is well formed and keeps the mode it was built with. -/
theorem reachable_wellFormed (d : Bool) (g : Graph) (h : Reachable d g) :
    WellFormed g ∧ g.isDirectional = d := by
  induction h with
  | empty => exact ⟨wellFormed_empty d, rfl⟩
  | add label _ ih => exact ⟨wellFormed_add _ ih.1 label, (add_isDirectional _ _).trans ih.2⟩
  | @connect g₀ g₁ r fuel a b w _ hstep ih =>
    have hx := connect_eq_of_some fuel g₀ a b w _ hstep
    have h1 := wellFormed_connectResult g₀ ih.1 a b w
    have h2 := connectResult_isDirectional g₀ a b w
    rw [← hx] at h1 h2
    exact ⟨h1, h2.trans ih.2⟩
  | @disconnect g₀ g₁ r fuel a b _ hstep ih =>
    have hx := disconnect_eq_of_some fuel g₀ ih.1 a b _ hstep
    have h1 := wellFormed_disconnectResult g₀ ih.1 a b
    have h2 := disconnectResult_isDirectional g₀ a b
    rw [← hx] at h1 h2
    exact ⟨h1, h2.trans ih.2⟩

/-! ## Mirror records of an undirected graph -/

theorem mirrored_containsEdge (g : Graph) (hm : Mirrored g) (a b : String) (w w' : Int)
    (h : containsEdge g a b w = true) : containsEdge g b a w' = true := by
  obtain ⟨e, he, h1, h2⟩ := (containsEdge_iff g a b w).1 h
  exact (containsEdge_iff g b a w').2 ⟨_, hm e he, h2, h1⟩

theorem connectResult_undirected (g : Graph) (hd : g.isDirectional = false) (hm : Mirrored g)
    (a b : String) (w : Int) :
    (connectResult g a b w = (g, false) ∧ (containsEdge g a b w = true ∨ a = b)) ∨
    (connectResult g a b w = (connectStep (connectStep g a b w) b a w, true) ∧
      containsEdge g a b w = false ∧ a ≠ b) := by
  rcases connectResult_cases g a b w with h | ⟨_, hc, _, h | h⟩ | ⟨e, hc, hab, -⟩
  · exact Or.inl h
  · rw [hd] at h
    simp at h
  · rw [mirrored_containsEdge g hm b a w w h] at hc
    simp at hc
  · exact Or.inr ⟨e, hc, hab⟩

theorem disconnectResult_undirected (g : Graph) (hd : g.isDirectional = false)
    (hm : Mirrored g) (a b : String) :
    (disconnectResult g a b = (g, false) ∧ (containsEdge g a b 0 = false ∨ a = b)) ∨
    (disconnectResult g a b = (removeEdge (removeEdge g a b) b a, true) ∧
      containsEdge g a b 0 = true ∧ a ≠ b) := by
  rcases disconnectResult_cases g a b with h | ⟨_, hc, _, h | h⟩ | ⟨e, hc, hab, -⟩
  · exact Or.inl h
  · rw [hd] at h
    simp at h
  · rw [mirrored_containsEdge g hm a b 0 0 hc] at h
    simp at h
  · exact Or.inr ⟨e, hc, hab⟩

theorem mirrored_connectResult (g : Graph) (hd : g.isDirectional = false) (hm : Mirrored g)
    (a b : String) (w : Int) : Mirrored (connectResult g a b w).1 := by
  rcases connectResult_undirected g hd hm a b w with ⟨e, -⟩ | ⟨e, -⟩
  · rw [e]
    exact hm
  · rw [e]
    intro x hx
    simp only [connectStep_edges, List.mem_append, List.mem_singleton] at hx ⊢
    rcases hx with (hx | hx) | hx
    · exact Or.inl (Or.inl (hm x hx))
    · subst hx
      exact Or.inr rfl
    · subst hx
      exact Or.inl (Or.inr rfl)

theorem mirrored_disconnectResult (g : Graph) (hd : g.isDirectional = false)
    (hm : Mirrored g) (a b : String) : Mirrored (disconnectResult g a b).1 := by
  rcases disconnectResult_undirected g hd hm a b with ⟨e, -⟩ | ⟨e, -⟩
  · rw [e]
    exact hm
  · rw [e]
    intro x hx
    simp only [removeEdge, List.mem_filter, Bool.not_eq_true', Bool.and_eq_false_iff,
      beq_eq_false_iff_ne, ne_eq] at hx ⊢
    obtain ⟨⟨hx, h1⟩, h2⟩ := hx
    refine ⟨⟨hm x hx, ?_⟩, ?_⟩
    · rcases h2 with h2 | h2
      · exact Or.inr h2
      · exact Or.inl h2
    · rcases h1 with h1 | h1
      · exact Or.inr h1
      · exact Or.inl h1

/-- Every graph reachable in undirected mode has all its mirror records. -/
theorem reachable_mirrored (g : Graph) (h : Reachable false g) : Mirrored g := by
  induction h with
  | empty => intro e he; simp [Graph.empty] at he
  | add label _ ih =>
    intro e he
    rw [add_edges] at he ⊢
    exact ih e he
  | @connect g₀ g₁ r fuel a b w hr hstep ih =>
    have hx := connect_eq_of_some fuel g₀ a b w _ hstep
    have h1 := mirrored_connectResult g₀ (reachable_wellFormed false g₀ hr).2 ih a b w
    rw [← hx] at h1
    exact h1
  | @disconnect g₀ g₁ r fuel a b hr hstep ih =>
    have hwf := reachable_wellFormed false g₀ hr
    have hx := disconnect_eq_of_some fuel g₀ hwf.1 a b _ hstep
    have h1 := mirrored_disconnectResult g₀ hwf.2 ih a b
    rw [← hx] at h1
    exact h1

/-! ## Counting matches -/

theorem length_filter_le_one {α : Type} (p : α → Bool) (l : List α)
    (h : l.Pairwise (fun x y => ¬ (p x = true ∧ p y = true))) : (l.filter p).length ≤ 1 := by
  induction l with
  | nil => simp
  | cons x l ih =>
    rw [List.filter_cons]
    cases hp : p x
    · simpa using ih (List.Pairwise.of_cons h)
    · have hnil : l.filter p = [] := by
        apply List.filter_eq_nil_iff.2
        intro y hy hy'
        exact List.rel_of_pairwise_cons h hy ⟨hp, hy'⟩
      simp [hnil]

theorem length_filter_not_of_unique {α : Type} (p : α → Bool) (l : List α)
    (h : l.Pairwise (fun x y => ¬ (p x = true ∧ p y = true))) (hex : ∃ x ∈ l, p x = true) :
    (l.filter (fun x => !p x)).length + 1 = l.length := by
  induction l with
  | nil => simp at hex
  | cons x l ih =>
    rw [List.filter_cons]
    cases hp : p x
    · obtain ⟨y, hy, hpy⟩ := hex
      rcases List.mem_cons.1 hy with e | hy'
      · rw [e, hp] at hpy
        simp at hpy
      · have := ih (List.Pairwise.of_cons h) ⟨y, hy', hpy⟩
        simp [this]
    · have hself : l.filter (fun x => !p x) = l := by
        apply List.filter_eq_self.2
        intro y hy
        cases hy' : p y
        · rfl
        · exact absurd ⟨hp, hy'⟩ (List.rel_of_pairwise_cons h hy)
      simp [hself]

/-! ## Invariants of reachable graphs -/

theorem adjacency_pairwise (g : Graph) (hg : WellFormed g) (l : String) (v : Vertex)
    (hv : mapAt g.vertices l = some v) :
    v.connectedVerts.Pairwise (fun s₁ s₂ => s₁.1 ≠ s₂.1) := by
  rw [hg.adjacency l v hv, List.pairwise_map]
  apply (hg.edges_unique.filter _).imp_of_mem
  intro x y hx hy hxy hp
  apply hxy
  have hx' := (List.mem_filter.1 hx).2
  have hy' := (List.mem_filter.1 hy).2
  simp only [beq_iff_eq] at hx' hy'
  exact ⟨hx'.trans hy'.symm, hp⟩

theorem mem_adjacency_iff (g : Graph) (hg : WellFormed g) (l : String) (v : Vertex)
    (hv : mapAt g.vertices l = some v) (t : String) (w : Int) :
    (t, w) ∈ v.connectedVerts ↔ Edge.mk l t w ∈ g.edges := by
  rw [hg.adjacency l v hv]
  simp only [List.mem_map, List.mem_filter, beq_iff_eq, Prod.mk.injEq]
  constructor
  · rintro ⟨e, ⟨he, h1⟩, h2, h3⟩
    obtain ⟨f, t', w'⟩ := e
    simp only at h1 h2 h3
    subst h1 h2 h3
    exact he
  · intro he
    exact ⟨_, ⟨he, rfl⟩, rfl, rfl⟩

/-- C4: in either mode, a graph reachable from the empty graph by `add`, `connect` and
`disconnect` calls holds at most one edge record for each ordered pair `(from, to)`, at
most one entry pointing at `to` in the adjacency list of `from`, and no edge record or
adjacency entry from a label to itself. -/
theorem reachable_edges_unique (d : Bool) (g : Graph) (h : Reachable d g) :
    g.edges.Pairwise (fun e₁ e₂ => ¬ (e₁.from_ = e₂.from_ ∧ e₁.to_ = e₂.to_)) ∧
    (∀ a b, (g.edges.filter (fun e => e.from_ == a && e.to_ == b)).length ≤ 1) ∧
    (∀ l v, mapAt g.vertices l = some v →
      v.connectedVerts.Pairwise (fun s₁ s₂ => s₁.1 ≠ s₂.1) ∧
      ∀ t, (v.connectedVerts.filter (fun s => s.1 == t)).length ≤ 1) ∧
    (∀ e ∈ g.edges, e.from_ ≠ e.to_) ∧
    (∀ l v, mapAt g.vertices l = some v → ∀ s ∈ v.connectedVerts, s.1 ≠ l) := by
  have hg := (reachable_wellFormed d g h).1
  refine ⟨hg.edges_unique, ?_, ?_, hg.no_self_loop, ?_⟩
  · intro a b
    apply length_filter_le_one
    apply hg.edges_unique.imp
    intro x y hxy hp
    apply hxy
    simp only [Bool.and_eq_true, beq_iff_eq] at hp
    exact ⟨hp.1.1.trans hp.2.1.symm, hp.1.2.trans hp.2.2.symm⟩
  · intro l v hv
    have hpw := adjacency_pairwise g hg l v hv
    refine ⟨hpw, fun t => ?_⟩
    apply length_filter_le_one
    apply hpw.imp
    intro x y hxy hp
    apply hxy
    simp only [beq_iff_eq] at hp
    exact hp.1.trans hp.2.symm
  · intro l v hv s hs
    obtain ⟨t, w⟩ := s
    have he := (mem_adjacency_iff g hg l v hv t w).1 hs
    have := hg.no_self_loop _ he
    exact fun e => this e.symm

/-- The invariant of C4 on the graph that `connect("a", "b", 10)` builds from the empty
directed graph. -/
theorem reachable_edges_unique_witness :
    ((connectStep (Graph.empty true) "a" "b" 10).edges.filter
      (fun e => e.from_ == "a" && e.to_ == "b")).length ≤ 1 :=
  (reachable_edges_unique true (connectStep (Graph.empty true) "a" "b" 10)
    (Reachable.connect 1 "a" "b" 10 Reachable.empty rfl)).2.1 "a" "b"

/-- C3: in undirected mode, a graph reachable from the empty graph by `add`, `connect`
and `disconnect` calls has, for every edge record `(A, B, w)`, the record `(B, A, w)`,
and for every entry `(B, w)` in the adjacency list of `A`, the entry `(A, w)` in the
adjacency list of `B`.  A successful `connect(A, B, w)` appends the two records
`(A, B, w)` and `(B, A, w)`, and a successful `disconnect(A, B)` removes the records
`A -> B` and `B -> A` and no other. -/
theorem undirected_mirror (g : Graph) (h : Reachable false g) :
    (∀ e ∈ g.edges, Edge.mk e.to_ e.from_ e.weight ∈ g.edges) ∧
    (∀ l v t w, mapAt g.vertices l = some v → (t, w) ∈ v.connectedVerts →
      ∃ v', mapAt g.vertices t = some v' ∧ (l, w) ∈ v'.connectedVerts) ∧
    (∀ n a b w g', connect n g a b w = some (g', true) →
      g'.edges = g.edges ++ [Edge.mk a b w, Edge.mk b a w]) ∧
    (∀ n a b g', disconnect n g a b = some (g', true) →
      g'.edges = g.edges.filter (fun e =>
        !(e.from_ == a && e.to_ == b) && !(e.from_ == b && e.to_ == a)) ∧
      containsEdge g' a b 0 = false ∧ containsEdge g' b a 0 = false) := by
  have hwf := reachable_wellFormed false g h
  have hg := hwf.1
  have hm := reachable_mirrored g h
  refine ⟨hm, ?_, ?_, ?_⟩
  · intro l v t w hv hs
    have he := (mem_adjacency_iff g hg l v hv t w).1 hs
    have he' := hm _ he
    obtain ⟨v', hv'⟩ := (contains_true_iff g t).1 (hg.endpoints _ he').1
    exact ⟨v', hv', (mem_adjacency_iff g hg t v' hv' l w).2 he'⟩
  · intro n a b w g' hc
    have hx := connect_eq_of_some n g a b w _ hc
    rcases connectResult_undirected g hwf.2 hm a b w with ⟨e, -⟩ | ⟨e, -⟩
    · rw [e] at hx
      simp at hx
    · rw [e] at hx
      rw [(Prod.mk.inj hx).1]
      simp [connectStep_edges]
  · intro n a b g' hc
    have hx := disconnect_eq_of_some n g hg a b _ hc
    rcases disconnectResult_undirected g hwf.2 hm a b with ⟨e, -⟩ | ⟨e, -, hab⟩
    · rw [e] at hx
      simp at hx
    · rw [e] at hx
      rw [(Prod.mk.inj hx).1]
      refine ⟨by simp [removeEdge, List.filter_filter, Bool.and_comm], ?_, ?_⟩
      · simp [containsEdge_removeEdge]
      · simp [containsEdge_removeEdge]

/-! ## A successful `disconnect` -/

theorem edgesSize_removeEdge (g : Graph) (hg : WellFormed g) (a b : String)
    (hc : containsEdge g a b 0 = true) :
    edgesSize (removeEdge g a b) = edgesSize g - 1 := by
  obtain ⟨e, he, h1, h2⟩ := (containsEdge_iff g a b 0).1 hc
  have := length_filter_not_of_unique (fun s : Edge => s.from_ == a && s.to_ == b) g.edges
    (by
      apply hg.edges_unique.imp
      intro x y hxy hp
      apply hxy
      simp only [Bool.and_eq_true, beq_iff_eq] at hp
      exact ⟨hp.1.1.trans hp.2.1.symm, hp.1.2.trans hp.2.2.symm⟩)
    ⟨e, he, by simp [h1, h2]⟩
  simp only [edgesSize, removeEdge]
  beta_reduce at this
  omega

theorem vertexDegree_removeEdge (g : Graph) (hg : WellFormed g) (a b : String)
    (hc : containsEdge g a b 0 = true) :
    vertexDegree (removeEdge g a b) a = vertexDegree g a - 1 := by
  obtain ⟨e, he, h1, h2⟩ := (containsEdge_iff g a b 0).1 hc
  have hca : contains g a = true := h1 ▸ (hg.endpoints e he).1
  obtain ⟨v, hv⟩ := (contains_true_iff g a).1 hca
  have hmem : (b, e.weight) ∈ v.connectedVerts := by
    apply (mem_adjacency_iff g hg a v hv b e.weight).2
    rw [← h1, ← h2]
    exact he
  have := length_filter_not_of_unique (fun s : String × Int => s.1 == b) v.connectedVerts
    (by
      apply (adjacency_pairwise g hg a v hv).imp
      intro x y hxy hp
      apply hxy
      simp only [beq_iff_eq] at hp
      exact hp.1.trans hp.2.symm)
    ⟨_, hmem, by simp⟩
  have hv' : mapAt (removeEdge g a b).vertices a = some { v with
      connectedVerts := v.connectedVerts.filter (fun s => !(s.1 == b)) } := by
    simp [mapAt_removeEdge, hv]
  rw [vertexDegree_of_mapAt _ _ _ hv', vertexDegree_of_mapAt _ _ _ hv]
  beta_reduce at this
  simp only
  omega

theorem vertexDegree_removeEdge_other (g : Graph) (a b l : String) (h : a ≠ l) :
    vertexDegree (removeEdge g a b) l = vertexDegree g l := by
  simp only [vertexDegree, contains_removeEdge, mapAt_removeEdge, if_neg h]

theorem vertex_filter_congr (v : Vertex) (p q : String × Int → Bool)
    (h : ∀ x ∈ v.connectedVerts, p x = q x) :
    ({ v with connectedVerts := v.connectedVerts.filter p } : Vertex) =
      { v with connectedVerts := v.connectedVerts.filter q } := by
  rw [List.filter_congr h]

theorem filter_true_of_forall {α : Type} (p : α → Bool) (l : List α)
    (h : ∀ x ∈ l, p x = true) : l.filter p = l :=
  List.filter_eq_self.2 h

/-- C5: on a reachable graph with an edge record `A -> B`, `disconnect(A, B)` returns
true (three nested calls suffice, and every returning call gives the same result);
`edgesSize()` is one less in directed mode and two less in undirected mode,
`vertexDegree(A)` is one less, no edge record `A -> B` is left, `verticesSize()` and the
vertex labels are the same, the edge collection is the old one without the record
`A -> B` (and without `B -> A` in undirected mode) in the old order, and every vertex
keeps its adjacency list in the old order, minus the entry for `B` in the list of `A`
(and the entry for `A` in the list of `B` in undirected mode). -/
theorem disconnect_existing_edge (d : Bool) (g : Graph) (hr : Reachable d g) (a b : String)
    (he : ∃ e ∈ g.edges, e.from_ = a ∧ e.to_ = b) :
    ∃ g', (∀ n, disconnect (n + 3) g a b = some (g', true)) ∧
      (∀ n x, disconnect n g a b = some x → x = (g', true)) ∧
      edgesSize g' = edgesSize g - (if d then 1 else 2) ∧
      vertexDegree g' a = vertexDegree g a - 1 ∧
      (¬ ∃ e ∈ g'.edges, e.from_ = a ∧ e.to_ = b) ∧
      verticesSize g' = verticesSize g ∧
      g'.vertices.map Prod.fst = g.vertices.map Prod.fst ∧
      g'.edges = g.edges.filter (fun e =>
        !(e.from_ == a && e.to_ == b) && (d || !(e.from_ == b && e.to_ == a))) ∧
      (∀ l, mapAt g'.vertices l = (mapAt g.vertices l).map (fun v =>
        { v with connectedVerts := v.connectedVerts.filter (fun s =>
            !(l == a && s.1 == b) && (d || !(l == b && s.1 == a))) })) := by
  have hwf := reachable_wellFormed d g hr
  have hg := hwf.1
  have hc : containsEdge g a b 0 = true := (containsEdge_iff g a b 0).2 he
  have hab : a ≠ b := by
    obtain ⟨e, he', h1, h2⟩ := he
    have := hg.no_self_loop e he'
    rwa [h1, h2] at this
  have hba : ¬ b = a := fun e => hab e.symm
  have hg2 := wellFormed_removeEdge g hg a b
  cases d with
  | true =>
    have hres : disconnectResult g a b = (removeEdge g a b, true) := by
      rcases disconnectResult_cases g a b with ⟨_, h | h⟩ | ⟨e, -⟩ | ⟨_, _, _, h, _⟩
      · rw [hc] at h
        simp at h
      · exact absurd h hab
      · exact e
      · rw [hwf.2] at h
        simp at h
    refine ⟨removeEdge g a b, ?_, ?_, ?_, ?_, ?_, ?_, ?_, ?_, ?_⟩
    · intro n
      rw [disconnect_eq n g hg, hres]
    · intro n x hx
      rw [disconnect_eq_of_some n g hg a b x hx, hres]
    · simpa using edgesSize_removeEdge g hg a b hc
    · exact vertexDegree_removeEdge g hg a b hc
    · intro h
      have := (containsEdge_iff (removeEdge g a b) a b 0).2 h
      simp [containsEdge_removeEdge] at this
    · simp [verticesSize, removeEdge, length_mapModify]
    · simp [removeEdge, keys_mapModify]
    · simp [removeEdge]
    · intro l
      rw [mapAt_removeEdge]
      by_cases h : a = l
      · subst h
        simp
      · have h' : ¬ l = a := fun e => h e.symm
        simp only [h, if_false]
        cases hv : mapAt g.vertices l with
        | none => rfl
        | some v =>
          simp only [Option.map_some', Option.some.injEq]
          have : v.connectedVerts.filter (fun s =>
              !(l == a && s.1 == b) && (true || !(l == b && s.1 == a))) = v.connectedVerts := by
            apply filter_true_of_forall
            intro x _
            simp [h']
          rw [this]
  | false =>
    have hm := reachable_mirrored g hr
    have hc' : containsEdge g b a 0 = true := mirrored_containsEdge g hm a b 0 0 hc
    have hc2 : containsEdge (removeEdge g a b) b a 0 = true := by
      simp [containsEdge_removeEdge, hc', hba]
    have hres : disconnectResult g a b = (removeEdge (removeEdge g a b) b a, true) := by
      rcases disconnectResult_undirected g hwf.2 hm a b with ⟨_, h | h⟩ | ⟨e, -⟩
      · rw [hc] at h
        simp at h
      · exact absurd h hab
      · exact e
    refine ⟨removeEdge (removeEdge g a b) b a, ?_, ?_, ?_, ?_, ?_, ?_, ?_, ?_, ?_⟩
    · intro n
      rw [disconnect_eq n g hg, hres]
    · intro n x hx
      rw [disconnect_eq_of_some n g hg a b x hx, hres]
    · have h1 := edgesSize_removeEdge g hg a b hc
      have h2 := edgesSize_removeEdge _ hg2 b a hc2
      simp only [Bool.false_eq_true, if_false]
      omega
    · rw [vertexDegree_removeEdge_other _ b a a hba]
      exact vertexDegree_removeEdge g hg a b hc
    · intro h
      have := (containsEdge_iff (removeEdge (removeEdge g a b) b a) a b 0).2 h
      simp [containsEdge_removeEdge] at this
    · simp [verticesSize, removeEdge, length_mapModify]
    · simp [removeEdge, keys_mapModify]
    · simp [removeEdge, List.filter_filter, Bool.and_comm]
    · intro l
      simp only [mapAt_removeEdge]
      by_cases h1 : b = l
      · subst h1
        simp only [if_true, if_neg hab]
        cases hv : mapAt g.vertices b with
        | none => rfl
        | some v =>
          simp only [Option.map_some', Option.some.injEq]
          apply vertex_filter_congr
          intro x _
          simp [hba]
      · have h1' : ¬ l = b := fun e => h1 e.symm
        simp only [h1, if_false]
        by_cases h : a = l
        · subst h
          simp only [if_true]
          cases hv : mapAt g.vertices a with
          | none => rfl
          | some v =>
            simp only [Option.map_some', Option.some.injEq]
            apply vertex_filter_congr
            intro x _
            simp [hab]
        · have h' : ¬ l = a := fun e => h e.symm
          simp only [h, if_false]
          cases hv : mapAt g.vertices l with
          | none => rfl
          | some v =>
            simp only [Option.map_some', Option.some.injEq]
            have : v.connectedVerts.filter (fun s =>
                !(l == a && s.1 == b) && (false || !(l == b && s.1 == a)))
                = v.connectedVerts := by
              apply filter_true_of_forall
              intro x _
              simp [h', h1']
            rw [this]

/-! ## Two concrete reachable graphs -/

theorem reachable_connectResult (d : Bool) (g : Graph) (h : Reachable d g) (a b : String)
    (w : Int) : Reachable d (connectResult g a b w).1 :=
  Reachable.connect 3 a b w h (connect_eq 0 g a b w)

theorem reachable_disconnectResult (d : Bool) (g : Graph) (h : Reachable d g) (a b : String) :
    Reachable d (disconnectResult g a b).1 :=
  Reachable.disconnect 3 a b h (disconnect_eq 0 g (reachable_wellFormed d g h).1 a b)

theorem testGraphBasic_eq : testGraphBasic = some basicGraph := by decide

theorem basicGraph_reachable : Reachable true basicGraph := by
  have h : Reachable true (connectResult (connectResult (connectResult
      (add (add (add (add (add (Graph.empty true) "a").1 "b").1 "c").1 "d").1 "e").1
      "a" "b" 10).1 "a" "d" 40).1 "a" "c" 20).1 := by
    apply reachable_connectResult
    apply reachable_connectResult
    apply reachable_connectResult
    exact Reachable.add "e" (Reachable.add "d" (Reachable.add "c" (Reachable.add "b"
      (Reachable.add "a" Reachable.empty))))
  have e : (connectResult (connectResult (connectResult
      (add (add (add (add (add (Graph.empty true) "a").1 "b").1 "c").1 "d").1 "e").1
      "a" "b" 10).1 "a" "d" 40).1 "a" "c" 20).1 = basicGraph := by decide
  rw [← e]
  exact h

theorem undirectedGraph0_reachable : Reachable false undirectedGraph0 := by
  have h : Reachable false (connectResult (connectResult (connectResult
      (Graph.empty false) "A" "B" 1).1 "A" "C" 8).1 "B" "C" 3).1 := by
    apply reachable_connectResult
    apply reachable_connectResult
    apply reachable_connectResult
    exact Reachable.empty
  have e : (connectResult (connectResult (connectResult
      (Graph.empty false) "A" "B" 1).1 "A" "C" 8).1 "B" "C" 3).1 = undirectedGraph0 := by
    decide
  rw [← e]
  exact h

/-- C3 on the undirected graph `A - B (1)`, `A - C (8)`, `B - C (3)`: the record
`(B, C, 3)` has its mirror `(C, B, 3)`, and the entry `(C, 3)` of `B` has its mirror
entry `(B, 3)` in the adjacency list of `C`. -/
theorem undirected_mirror_witness :
    Edge.mk "C" "B" 3 ∈ undirectedGraph0.edges ∧
    ∃ v', mapAt undirectedGraph0.vertices "C" = some v' ∧ ("B", 3) ∈ v'.connectedVerts :=
  ⟨(undirected_mirror undirectedGraph0 undirectedGraph0_reachable).1
      (Edge.mk "B" "C" 3) (by decide),
   (undirected_mirror undirectedGraph0 undirectedGraph0_reachable).2.1 "B"
      (Vertex.mk "B" [("A", 1), ("C", 3)]) "C" 3 rfl (by decide)⟩

/-- C5 on `testGraphBasic`: `disconnect("a", "c")` returns true, and there is one edge
less in the graph and one less from `a`. -/
theorem disconnect_existing_edge_witness :
    ∃ g', disconnect 3 basicGraph "a" "c" = some (g', true) ∧
      edgesSize g' = edgesSize basicGraph - 1 ∧
      vertexDegree g' "a" = vertexDegree basicGraph "a" - 1 := by
  obtain ⟨g', h1, -, h3, h4, -⟩ :=
    disconnect_existing_edge true basicGraph basicGraph_reachable "a" "c" (by decide)
  exact ⟨g', h1 0, h3, h4⟩

/-! ## A rejected `disconnect` -/

/-- C6: `disconnect(from, to)` returns false when `from == to` or no edge record
`from -> to` exists, and then the graph is the same graph (same vertices, edge records
and adjacency lists, so the same `edgesSize()`); a call that returns false was made with
`from == to` or without such an edge record; in a reachable graph a label that is not
a vertex has no edge record, so `disconnect` returns false for it; and on a reachable
graph `disconnect` returns, false in exactly these cases. -/
theorem disconnect_rejects (g : Graph) (a b : String) :
    ((a = b ∨ ¬ ∃ e ∈ g.edges, e.from_ = a ∧ e.to_ = b) →
      ∀ n, disconnect (n + 1) g a b = some (g, false)) ∧
    (∀ n g', disconnect n g a b = some (g', false) →
      (a = b ∨ ¬ ∃ e ∈ g.edges, e.from_ = a ∧ e.to_ = b) ∧
      g' = g ∧ edgesSize g' = edgesSize g) ∧
    (∀ d, Reachable d g → (contains g a = false ∨ contains g b = false) →
      ∀ n, disconnect (n + 1) g a b = some (g, false)) ∧
    (∀ d, Reachable d g → ∀ n, ∃ g' r, disconnect (n + 3) g a b = some (g', r) ∧
      (r = false ↔ (a = b ∨ ¬ ∃ e ∈ g.edges, e.from_ = a ∧ e.to_ = b))) := by
  have hguard : (a = b ∨ ¬ ∃ e ∈ g.edges, e.from_ = a ∧ e.to_ = b) →
      ∀ n, disconnect (n + 1) g a b = some (g, false) := by
    intro h n
    apply disconnect_of_guard
    rcases h with h | h
    · exact Or.inr h
    · left
      cases hc : containsEdge g a b 0
      · rfl
      · exact absurd ((containsEdge_iff g a b 0).1 hc) h
  refine ⟨hguard, ?_, ?_, ?_⟩
  · intro n g' h
    cases n with
    | zero => simp [disconnect_zero] at h
    | succ n =>
      rw [disconnect_succ] at h
      cases hc : (!containsEdge g a b 0 || a == b)
      · simp only [hc, Bool.false_eq_true, if_false] at h
        cases hs : disconnectStep g a b with
        | none => simp [hs] at h
        | some g2 =>
          simp only [hs] at h
          cases hd : (!g2.isDirectional)
          · simp [hd] at h
          · simp only [hd, if_true] at h
            cases hr : disconnect n g2 b a with
            | none => simp [hr] at h
            | some x => simp [hr] at h
      · simp only [hc, if_true] at h
        have hg' : g' = g := (Prod.mk.inj (Option.some.inj h)).1.symm
        refine ⟨?_, hg', by rw [hg']⟩
        simp only [Bool.or_eq_true, Bool.not_eq_true', beq_iff_eq] at hc
        rcases hc with hc | hc
        · right
          intro he
          rw [(containsEdge_iff g a b 0).2 he] at hc
          simp at hc
        · exact Or.inl hc
  · intro d hr hv n
    apply hguard
    right
    rintro ⟨e, he, h1, h2⟩
    have := (reachable_wellFormed d g hr).1.endpoints e he
    rw [h1, h2] at this
    rcases hv with hv | hv
    · rw [hv] at this
      simp at this
    · rw [hv] at this
      simp at this
  · intro d hr n
    have hg := (reachable_wellFormed d g hr).1
    refine ⟨(disconnectResult g a b).1, (disconnectResult g a b).2,
      disconnect_eq n g hg a b, ?_⟩
    rcases disconnectResult_cases g a b with ⟨e, hc⟩ | ⟨e, hc, hab, -⟩ | ⟨e, hc, hab, -⟩
    · rw [e]
      refine ⟨fun _ => ?_, fun _ => rfl⟩
      rcases hc with hc | hc
      · right
        intro he
        rw [(containsEdge_iff g a b 0).2 he] at hc
        simp at hc
      · exact Or.inl hc
    · rw [e]
      refine ⟨fun h => by simp at h, ?_⟩
      rintro (h | h)
      · exact absurd h hab
      · exact absurd ((containsEdge_iff g a b 0).1 hc) h
    · rw [e]
      refine ⟨fun h => by simp at h, ?_⟩
      rintro (h | h)
      · exact absurd h hab
      · exact absurd ((containsEdge_iff g a b 0).1 hc) h

/-- C6 on `testGraphBasic`: `disconnect("a", "e")` returns false and changes nothing, and
so does a call with the unknown label `xxx`. -/
theorem disconnect_rejects_witness :
    disconnect 1 basicGraph "a" "e" = some (basicGraph, false) ∧
    disconnect 1 basicGraph "a" "xxx" = some (basicGraph, false) :=
  ⟨(disconnect_rejects basicGraph "a" "e").1 (Or.inr (by decide)) 0,
   (disconnect_rejects basicGraph "a" "xxx").2.2.1 true basicGraph_reachable
     (Or.inr (by decide)) 0⟩

/-! ## The order of labels -/

theorem char_eq_of_toNat_eq (a b : Char) (h : a.toNat = b.toNat) : a = b := by
  apply Char.ext
  apply UInt32.eq_of_val_eq
  apply Fin.ext
  exact h

theorem lexLt_irrefl (a : List Char) : lexLt a a = false := by
  induction a with
  | nil => rfl
  | cons x xs ih => simp [lexLt, ih]

theorem lexLt_trans : ∀ (a b c : List Char), lexLt a b = true → lexLt b c = true →
    lexLt a c = true := by
  intro a
  induction a with
  | nil =>
    intro b c h1 h2
    cases b with
    | nil => simp [lexLt] at h1
    | cons y ys =>
      cases c with
      | nil => simp [lexLt] at h2
      | cons z zs => simp [lexLt]
  | cons x xs ih =>
    intro b c h1 h2
    cases b with
    | nil => simp [lexLt] at h1
    | cons y ys =>
      cases c with
      | nil => simp [lexLt] at h2
      | cons z zs =>
        simp only [lexLt] at h1 h2 ⊢
        by_cases hxy : x.toNat < y.toNat
        · by_cases hyz : y.toNat < z.toNat
          · have : x.toNat < z.toNat := by omega
            simp [this]
          · simp only [hyz, if_false] at h2
            by_cases hzy : z.toNat < y.toNat
            · simp [hzy] at h2
            · have : x.toNat < z.toNat := by omega
              simp [this]
        · simp only [hxy, if_false] at h1
          by_cases hyx : y.toNat < x.toNat
          · simp [hyx] at h1
          · simp only [hyx, if_false] at h1
            have hxy' : x.toNat = y.toNat := by omega
            by_cases hyz : y.toNat < z.toNat
            · have : x.toNat < z.toNat := by omega
              simp [this]
            · simp only [hyz, if_false] at h2
              by_cases hzy : z.toNat < y.toNat
              · simp [hzy] at h2
              · simp only [hzy, if_false] at h2
                have h3 : ¬ x.toNat < z.toNat := by omega
                have h4 : ¬ z.toNat < x.toNat := by omega
                simp only [h3, h4, if_false]
                exact ih ys zs h1 h2

theorem lexLt_total : ∀ (a b : List Char), a ≠ b → lexLt a b = true ∨ lexLt b a = true := by
  intro a
  induction a with
  | nil =>
    intro b h
    cases b with
    | nil => exact absurd rfl h
    | cons y ys => simp [lexLt]
  | cons x xs ih =>
    intro b h
    cases b with
    | nil => simp [lexLt]
    | cons y ys =>
      simp only [lexLt]
      by_cases hxy : x.toNat < y.toNat
      · simp [hxy]
      · by_cases hyx : y.toNat < x.toNat
        · simp [hyx]
        · have hxy' : x = y := char_eq_of_toNat_eq x y (by omega)
          have hne : xs ≠ ys := by
            intro e
            exact h (by rw [hxy', e])
          simp only [hxy, hyx, if_false]
          exact ih ys hne

theorem lexLt_iff_lt : ∀ (a b : List Char), lexLt a b = true ↔ a < b := by
  intro a
  induction a with
  | nil =>
    intro b
    cases b with
    | nil => simp [lexLt]
    | cons y ys =>
      simp only [lexLt, true_iff]
      exact List.nil_lt_cons y ys
  | cons x xs ih =>
    intro b
    cases b with
    | nil =>
      simp only [lexLt, Bool.false_eq_true, false_iff]
      exact not_lt_of_lt (List.nil_lt_cons x xs)
    | cons y ys =>
      have hlt : ∀ c d : Char, c.toNat < d.toNat → c < d := fun _ _ h => h
      simp only [lexLt]
      by_cases hxy : x.toNat < y.toNat
      · simp only [hxy, if_true, true_iff]
        exact List.Lex.rel (hlt x y hxy)
      · by_cases hyx : y.toNat < x.toNat
        · simp only [hxy, hyx, if_true, if_false, Bool.false_eq_true, false_iff]
          exact not_lt_of_lt (List.Lex.rel (hlt y x hyx))
        · have e : x = y := char_eq_of_toNat_eq x y (by omega)
          subst e
          simp only [hxy, if_false]
          exact (ih ys).trans List.Lex.cons_iff.symm

/-- The comparison `strLt` is the order of strings in the library. -/
theorem strLt_iff_lt (a b : String) : strLt a b = true ↔ a < b := by
  rw [String.lt_iff_toList_lt]
  exact lexLt_iff_lt a.data b.data

theorem strLt_irrefl (a : String) : strLt a a = false := lexLt_irrefl a.data

theorem strLt_trans (a b c : String) (h1 : strLt a b = true) (h2 : strLt b c = true) :
    strLt a c = true := lexLt_trans _ _ _ h1 h2

theorem strLt_total (a b : String) (h : a ≠ b) : strLt a b = true ∨ strLt b a = true :=
  lexLt_total _ _ (fun e => h (String.ext e))

/-- Assigning to a key that is not bound keeps the keys of a map in increasing order. -/
theorem mapAssign_sorted {V : Type} (m : List (String × V)) (k : String) (v : V)
    (hs : (m.map Prod.fst).Pairwise (fun x y => strLt x y = true))
    (hk : mapAt m k = none) :
    ((mapAssign m k v).map Prod.fst).Pairwise (fun x y => strLt x y = true) := by
  induction m with
  | nil => simp [mapAssign]
  | cons a m ih =>
    obtain ⟨ka, va⟩ := a
    have h1 : ¬ ka = k := by
      intro e
      simp [mapAt, e] at hk
    have h2 : mapAt m k = none := by
      simpa [mapAt, h1] using hk
    simp only [List.map_cons, List.pairwise_cons] at hs
    simp only [mapAssign, h1, if_false]
    by_cases h3 : strLt k ka = true
    · simp only [h3, if_true, List.map_cons, List.pairwise_cons]
      refine ⟨?_, hs⟩
      intro y hy
      rcases List.mem_cons.1 hy with e | hy'
      · rw [e]
        exact h3
      · exact strLt_trans _ _ _ h3 (hs.1 y hy')
    · simp only [h3, Bool.false_eq_true, if_false, List.map_cons, List.pairwise_cons]
      refine ⟨?_, ih hs.2 h2⟩
      intro y hy
      obtain ⟨l₁, l₂, e₁, e₂⟩ := mapAssign_new m k v h2
      rw [e₂] at hy
      simp only [List.map_append, List.map_cons, List.mem_append, List.mem_cons] at hy
      have hmem : ∀ z, z ∈ l₁.map Prod.fst ∨ z ∈ l₂.map Prod.fst → z ∈ m.map Prod.fst := by
        intro z hz
        rw [e₁]
        simpa using hz
      rcases hy with hy | hy | hy
      · exact hs.1 y (hmem y (Or.inl hy))
      · rw [hy]
        rcases strLt_total ka k h1 with h | h
        · exact h
        · exact absurd h h3
      · exact hs.1 y (hmem y (Or.inr hy))

/-! ## `getEdgesAsString` -/

theorem edgeItem_data (s : String × Int) :
    (edgeItem s).data = (edgeText s).data ++ [','] := by
  simp [edgeItem, edgeText, String.data_append]

theorem foldl_append_data (z : List (String × String)) (acc : String) :
    (z.foldl (fun p i => p ++ i.2) acc).data =
      acc.data ++ (z.map (fun i => i.2.data)).flatten := by
  induction z generalizing acc with
  | nil => simp
  | cons x z ih => simp [ih, String.data_append, List.append_assoc]

theorem intercalate_go_data (s : String) (l : List String) (acc : String) :
    (String.intercalate.go acc s l).data =
      acc.data ++ (l.map (fun a => s.data ++ a.data)).flatten := by
  induction l generalizing acc with
  | nil => simp [String.intercalate.go]
  | cons x l ih => simp [String.intercalate.go, ih, String.data_append, List.append_assoc]

theorem flatten_shift {α β : Type} (f : β → List α) (c : α) (x : β) (xs : List β) :
    ((x :: xs).map (fun e => f e ++ [c])).flatten =
      f x ++ (xs.map (fun e => c :: f e)).flatten ++ [c] := by
  induction xs generalizing x with
  | nil => simp
  | cons y ys ih =>
    have := ih y
    simp only [List.map_cons, List.flatten_cons] at this ⊢
    rw [this]
    simp [List.append_assoc]

/-- The text `getEdgesAsString` makes of a map that holds the items of the entries `l`
in this order: the items `neighbor(weight)` joined by commas. -/
theorem render_eq (l : List (String × Int)) :
    substr0 ((l.map (fun s => (s.1, edgeItem s))).foldl (fun p i => p ++ i.2) "")
      (sizeSub1 ((l.map (fun s => (s.1, edgeItem s))).foldl (fun p i => p ++ i.2) "").length) =
      String.intercalate "," (l.map edgeText) := by
  cases l with
  | nil => decide
  | cons x xs =>
    apply String.ext
    have hp : ((List.map (fun s => (s.1, edgeItem s)) (x :: xs)).foldl
        (fun p i => p ++ i.2) "").data =
        ((edgeText x).data ++ (xs.map (fun e => ',' :: (edgeText e).data)).flatten) ++ [','] := by
      rw [foldl_append_data, List.map_map]
      have : ((fun i : String × String => i.2.data) ∘ fun s : String × Int => (s.1, edgeItem s))
          = fun e => (edgeText e).data ++ [','] := by
        funext e
        simp [edgeItem_data]
      rw [this, flatten_shift]
      simp
    have hlen : ((List.map (fun s => (s.1, edgeItem s)) (x :: xs)).foldl
        (fun p i => p ++ i.2) "").data.length ≠ 0 := by
      rw [hp]
      simp
    simp only [substr0, sizeSub1, String.length, hlen, if_false]
    rw [← List.dropLast_eq_take, hp, List.dropLast_concat]
    simp only [String.intercalate, List.map_cons, intercalate_go_data, List.map_map]
    congr 2

theorem mapAt_map_item (l : List (String × Int)) (k : String) (h : k ∉ l.map Prod.fst) :
    mapAt (l.map (fun s => (s.1, edgeItem s))) k = none := by
  apply (mapAt_eq_none_iff _ _).2
  simpa [List.map_map] using h

/-- The first loop of `getEdgesAsString` on entries with distinct labels: the map ends up
holding the items of all entries, in increasing label order. -/
theorem foldl_mapAssign_sorted : ∀ (adj l : List (String × Int)),
    (l.map Prod.fst).Pairwise (fun x y => strLt x y = true) →
    (adj.map Prod.fst).Nodup →
    (∀ s ∈ adj, s.1 ∉ l.map Prod.fst) →
    ∃ l' : List (String × Int), l'.Perm (l ++ adj) ∧
      (l'.map Prod.fst).Pairwise (fun x y => strLt x y = true) ∧
      adj.foldl (fun z s => mapAssign z s.1 (edgeItem s)) (l.map (fun s => (s.1, edgeItem s))) =
        l'.map (fun s => (s.1, edgeItem s)) := by
  intro adj
  induction adj with
  | nil =>
    intro l hs _ _
    exact ⟨l, by rw [List.append_nil], hs, rfl⟩
  | cons s rest ih =>
    intro l hs hnd hdis
    have hk : mapAt (l.map (fun s => (s.1, edgeItem s))) s.1 = none :=
      mapAt_map_item l s.1 (hdis s (List.mem_cons_self _ _))
    obtain ⟨m₁, m₂, e₁, e₂⟩ := mapAssign_new _ s.1 (edgeItem s) hk
    obtain ⟨l₁, l₂, el, rfl, rfl⟩ := List.map_eq_append_iff.1 e₁
    have hz : mapAssign (l.map (fun s => (s.1, edgeItem s))) s.1 (edgeItem s) =
        (l₁ ++ s :: l₂).map (fun s => (s.1, edgeItem s)) := by
      rw [e₂]
      simp
    have hsorted := mapAssign_sorted _ s.1 (edgeItem s)
      (by simpa [List.map_map] using hs) hk
    rw [hz] at hsorted
    have hs' : ((l₁ ++ s :: l₂).map Prod.fst).Pairwise (fun x y => strLt x y = true) := by
      simpa [List.map_map] using hsorted
    simp only [List.map_cons, List.nodup_cons] at hnd
    obtain ⟨l', hp, hsl, hf⟩ := ih (l₁ ++ s :: l₂) hs' hnd.2 (by
      intro t ht
      have h1 := hdis t (List.mem_cons_of_mem _ ht)
      rw [el] at h1
      simp only [List.map_append, List.map_cons, List.mem_append, List.mem_cons] at h1 ⊢
      intro h
      rcases h with h | h | h
      · exact h1 (Or.inl h)
      · apply hnd.1
        rw [← h]
        exact List.mem_map_of_mem _ ht
      · exact h1 (Or.inr h))
    refine ⟨l', ?_, hsl, ?_⟩
    · apply hp.trans
      rw [el]
      have : (l₁ ++ s :: l₂).Perm ((l₁ ++ l₂) ++ [s]) := by
        apply List.perm_middle.trans
        exact (List.perm_append_singleton s (l₁ ++ l₂)).symm
      have h2 := this.append_right rest
      simpa [List.append_assoc] using h2
    · rw [List.foldl_cons, hz]
      exact hf

theorem getEdgesAsString_of_mapAt (g : Graph) (L : String) (v : Vertex)
    (hv : mapAt g.vertices L = some v) :
    getEdgesAsString g L =
      substr0 ((v.connectedVerts.foldl (fun z s => mapAssign z s.1 (edgeItem s)) []).foldl
          (fun p i => p ++ i.2) "")
        (sizeSub1 ((v.connectedVerts.foldl (fun z s => mapAssign z s.1 (edgeItem s)) []).foldl
          (fun p i => p ++ i.2) "").length) := by
  have hc : contains g L = true := (contains_true_iff g L).2 ⟨v, hv⟩
  simp [getEdgesAsString, hc, hv]

/-- The rendered adjacency of a vertex whose entries have distinct labels. -/
theorem getEdgesAsString_of_nodup (g : Graph) (L : String) (v : Vertex)
    (hv : mapAt g.vertices L = some v) (hnd : (v.connectedVerts.map Prod.fst).Nodup) :
    ∃ l : List (String × Int), l.Perm v.connectedVerts ∧
      l.Pairwise (fun s t => strLt s.1 t.1 = true) ∧
      getEdgesAsString g L = String.intercalate "," (l.map edgeText) := by
  obtain ⟨l, hp, hs, hf⟩ := foldl_mapAssign_sorted v.connectedVerts [] (by simp) hnd (by simp)
  refine ⟨l, by simpa using hp, ?_, ?_⟩
  · rw [List.pairwise_map] at hs
    exact hs
  · rw [getEdgesAsString_of_mapAt g L v hv]
    simp only [List.map_nil] at hf
    rw [hf]
    exact render_eq l

theorem sorted_perm_unique (l₁ l₂ : List (String × Int)) (hp : l₁.Perm l₂)
    (h₁ : l₁.Pairwise (fun s t => strLt s.1 t.1 = true))
    (h₂ : l₂.Pairwise (fun s t => strLt s.1 t.1 = true)) : l₁ = l₂ := by
  haveI : IsAntisymm (String × Int) (fun s t => strLt s.1 t.1 = true) :=
    ⟨fun s t hst hts => by
      have := strLt_trans _ _ _ hst hts
      rw [strLt_irrefl] at this
      simp at this⟩
  exact List.eq_of_perm_of_sorted hp h₁ h₂

theorem reachable_adjacency_nodup (d : Bool) (g : Graph) (hr : Reachable d g) (L : String)
    (v : Vertex) (hv : mapAt g.vertices L = some v) : (v.connectedVerts.map Prod.fst).Nodup := by
  have := adjacency_pairwise g (reachable_wellFormed d g hr).1 L v hv
  unfold List.Nodup
  rw [List.pairwise_map]
  exact this

/-- C8: in a reachable graph, `getEdgesAsString(L)` for a vertex `L` is the list of the
items `neighbor(weight)`, one for each entry of the adjacency list of `L`, in strictly
increasing order of the neighbour labels (the comparison of the code, which is the
order of strings), joined by commas and without a comma at the end; two vertices whose adjacency lists hold the same entries in any order are rendered
alike.  After the calls of `testGraphBasic` the text for `a` is `b(10),c(20),d(40)`, and
after `disconnect("a", "c")` it is `b(10),d(40)`. -/
theorem getEdgesAsString_sorted :
    (∀ (d : Bool) (g : Graph) (L : String) (v : Vertex), Reachable d g →
      mapAt g.vertices L = some v →
      (∃ l : List (String × Int), l.Perm v.connectedVerts ∧
        l.Pairwise (fun s t => strLt s.1 t.1 = true) ∧
        l.Pairwise (fun s t => s.1 < t.1) ∧
        getEdgesAsString g L = String.intercalate "," (l.map edgeText)) ∧
      (∀ (d' : Bool) (g' : Graph) (L' : String) (v' : Vertex), Reachable d' g' →
        mapAt g'.vertices L' = some v' → v'.connectedVerts.Perm v.connectedVerts →
        getEdgesAsString g' L' = getEdgesAsString g L)) ∧
    testGraphBasic.map (fun g => getEdgesAsString g "a") = some "b(10),c(20),d(40)" ∧
    (testGraphBasic.bind (fun g => disconnect 3 g "a" "c")).map
      (fun r => (r.2, getEdgesAsString r.1 "a")) = some (true, "b(10),d(40)") := by
  refine ⟨?_, by decide, by decide⟩
  intro d g L v hr hv
  have h1 := getEdgesAsString_of_nodup g L v hv (reachable_adjacency_nodup d g hr L v hv)
  refine ⟨?_, ?_⟩
  · obtain ⟨l, hp, hs, he⟩ := h1
    exact ⟨l, hp, hs, hs.imp (fun h => (strLt_iff_lt _ _).1 h), he⟩
  intro d' g' L' v' hr' hv' hperm
  obtain ⟨l, hp, hs, he⟩ := h1
  obtain ⟨l', hp', hs', he'⟩ :=
    getEdgesAsString_of_nodup g' L' v' hv' (reachable_adjacency_nodup d' g' hr' L' v' hv')
  rw [he, he', sorted_perm_unique l' l ((hp'.trans hperm).trans hp.symm) hs' hs]

/-- C8 on `testGraphBasic`: the text for `a` joins the items of a sorted rearrangement of
its three connections. -/
theorem getEdgesAsString_sorted_witness :
    ∃ l : List (String × Int), l.Perm [("b", 10), ("d", 40), ("c", 20)] ∧
      l.Pairwise (fun s t => strLt s.1 t.1 = true) ∧
      l.Pairwise (fun s t => s.1 < t.1) ∧
      getEdgesAsString basicGraph "a" = String.intercalate "," (l.map edgeText) :=
  (getEdgesAsString_sorted.1 true basicGraph "a"
    (Vertex.mk "a" [("b", 10), ("d", 40), ("c", 20)]) basicGraph_reachable rfl).1

theorem mapAssign_ne_nil {V : Type} (m : List (String × V)) (k : String) (v : V) :
    mapAssign m k v ≠ [] := by
  cases m with
  | nil => simp [mapAssign]
  | cons a m =>
    obtain ⟨ka, va⟩ := a
    simp only [mapAssign]
    split
    · simp
    · split <;> simp

theorem mem_mapAssign {V : Type} (m : List (String × V)) (k : String) (v : V)
    (x : String × V) (hx : x ∈ mapAssign m k v) : x = (k, v) ∨ x ∈ m := by
  induction m with
  | nil =>
    simp only [mapAssign, List.mem_singleton] at hx
    exact Or.inl hx
  | cons a m ih =>
    obtain ⟨ka, va⟩ := a
    simp only [mapAssign] at hx
    split at hx
    · rcases List.mem_cons.1 hx with h | h
      · exact Or.inl h
      · exact Or.inr (List.mem_cons_of_mem _ h)
    · split at hx
      · rcases List.mem_cons.1 hx with h | h
        · exact Or.inl h
        · exact Or.inr h
      · rcases List.mem_cons.1 hx with h | h
        · exact Or.inr (h ▸ List.mem_cons_self _ _)
        · rcases ih h with h' | h'
          · exact Or.inl h'
          · exact Or.inr (List.mem_cons_of_mem _ h')

theorem foldl_mapAssign_items (adj : List (String × Int)) :
    ∀ z : List (String × String), (∀ x ∈ z, ∃ s, x.2 = edgeItem s) → (adj ≠ [] ∨ z ≠ []) →
      adj.foldl (fun z s => mapAssign z s.1 (edgeItem s)) z ≠ [] ∧
      ∀ x ∈ adj.foldl (fun z s => mapAssign z s.1 (edgeItem s)) z, ∃ s, x.2 = edgeItem s := by
  induction adj with
  | nil =>
    intro z hz hne
    rcases hne with h | h
    · exact absurd rfl h
    · exact ⟨h, hz⟩
  | cons s rest ih =>
    intro z hz _
    simp only [List.foldl_cons]
    apply ih
    · intro x hx
      rcases mem_mapAssign z s.1 (edgeItem s) x hx with h | h
      · exact ⟨s, by rw [h]⟩
      · exact hz x h
    · exact Or.inr (mapAssign_ne_nil _ _ _)

theorem getEdgesAsString_ne_empty (g : Graph) (L : String) (v : Vertex)
    (hv : mapAt g.vertices L = some v) (hne : v.connectedVerts ≠ []) :
    getEdgesAsString g L ≠ "" := by
  rw [getEdgesAsString_of_mapAt g L v hv]
  obtain ⟨hz, hitems⟩ := foldl_mapAssign_items v.connectedVerts [] (by simp) (Or.inl hne)
  generalize v.connectedVerts.foldl (fun z s => mapAssign z s.1 (edgeItem s)) [] = z at hz hitems
  cases z with
  | nil => exact absurd rfl hz
  | cons x z =>
    obtain ⟨s, hs⟩ := hitems x (List.mem_cons_self _ _)
    have ht : 2 ≤ (edgeText s).length := by
      simp only [edgeText, String.length_append]
      have h1 : ("(" : String).length = 1 := rfl
      have h2 : (")" : String).length = 1 := rfl
      omega
    have hlen : 3 ≤ ((x :: z).foldl (fun p i => p ++ i.2) "").data.length := by
      rw [foldl_append_data]
      simp only [List.map_cons, List.flatten_cons, List.length_append, hs, edgeItem_data]
      simp
      omega
    intro h
    have h' := congrArg (fun t => t.data.length) h
    simp only [substr0, sizeSub1, String.length, List.length_take] at h'
    have hne0 : ((x :: z).foldl (fun p i => p ++ i.2) "").data.length ≠ 0 := by omega
    simp only [hne0, if_false] at h'
    have : ("" : String).data.length = 0 := rfl
    rw [this] at h'
    omega

/-- C10: `getEdgesAsString(L)` is the empty string when `L` is not a vertex of the graph,
and also when `L` is a vertex with no outgoing edges, where `substr(0, size() - 1)` is
taken of the empty buffer with the count `2^64 - 1` and gives the empty string; for
every graph, the result is empty exactly when `L` is unknown or has out-degree `0`. -/
theorem getEdgesAsString_empty_iff (g : Graph) (L : String) :
    (contains g L = false → getEdgesAsString g L = "") ∧
    (∀ v, mapAt g.vertices L = some v → v.connectedVerts = [] →
      getEdgesAsString g L = "") ∧
    (sizeSub1 ("" : String).length = 2 ^ 64 - 1 ∧ substr0 "" (2 ^ 64 - 1) = "") ∧
    (getEdgesAsString g L = "" ↔ (contains g L = false ∨ vertexDegree g L = 0)) := by
  have h1 : contains g L = false → getEdgesAsString g L = "" := by
    intro hc
    simp [getEdgesAsString, hc]
  have h2 : ∀ v, mapAt g.vertices L = some v → v.connectedVerts = [] →
      getEdgesAsString g L = "" := by
    intro v hv he
    rw [getEdgesAsString_of_mapAt g L v hv, he]
    decide
  refine ⟨h1, h2, ⟨by decide, by decide⟩, ?_⟩
  constructor
  · intro he
    cases hv : mapAt g.vertices L with
    | none => exact Or.inl ((contains_false_iff g L).2 hv)
    | some v =>
      right
      rw [vertexDegree_of_mapAt g L v hv]
      by_cases hne : v.connectedVerts = []
      · simp [hne]
      · exact absurd he (getEdgesAsString_ne_empty g L v hv hne)
  · rintro (hc | hd)
    · exact h1 hc
    · cases hv : mapAt g.vertices L with
      | none => exact h1 ((contains_false_iff g L).2 hv)
      | some v =>
        rw [vertexDegree_of_mapAt g L v hv] at hd
        apply h2 v hv
        apply List.eq_nil_of_length_eq_zero
        exact_mod_cast hd

/-- C10 on `testGraphBasic`: the text is empty for the unknown label `xxx` and for the
vertex `c`, which has no outgoing edge. -/
theorem getEdgesAsString_empty_iff_witness :
    getEdgesAsString basicGraph "xxx" = "" ∧ getEdgesAsString basicGraph "c" = "" :=
  ⟨(getEdgesAsString_empty_iff basicGraph "xxx").1 (by decide),
   (getEdgesAsString_empty_iff basicGraph "c").2.1 (Vertex.mk "c" []) rfl rfl⟩

/-! ## `connect`, `add` and `vertexDegree` on `testGraphBasic` -/

/-- C1 on `testGraphBasic`: the duplicate `connect("a", "b", 50)` and the self-loop
`connect("a", "a", 1)` return false and change nothing. -/
theorem connect_rejects_witness :
    connect 1 basicGraph "a" "b" 50 = some (basicGraph, false) ∧
    connect 1 basicGraph "a" "a" 1 = some (basicGraph, false) :=
  ⟨(connect_rejects basicGraph "a" "b" 50).2.1 (Or.inr (by decide)) 0,
   (connect_rejects basicGraph "a" "a" 1).2.2.2.2 0⟩

/-- C7 on `testGraphBasic`: the label `f` is not a vertex, `add("f")` returns true and
there is one vertex more. -/
theorem add_new_label_witness :
    contains basicGraph "f" = false ∧ (add basicGraph "f").2 = true ∧
    contains (add basicGraph "f").1 "f" = true ∧
    verticesSize (add basicGraph "f").1 = verticesSize basicGraph + 1 :=
  ⟨(add_new_label basicGraph "f" (by decide)).1,
   (add_new_label basicGraph "f" (by decide)).2.1,
   (add_new_label basicGraph "f" (by decide)).2.2.1,
   (add_new_label basicGraph "f" (by decide)).2.2.2.1⟩

/-- C9 on `testGraphBasic`: `vertexDegree` is `-1` for the unknown label `xxx` and `0`
for the vertex `c`. -/
theorem vertexDegree_spec_witness :
    vertexDegree basicGraph "xxx" = -1 ∧ vertexDegree basicGraph "c" = 0 :=
  ⟨(vertexDegree_spec basicGraph "xxx").1 (by decide),
   (vertexDegree_spec basicGraph "c").2.2.1 (Vertex.mk "c" []) rfl rfl⟩

/-! ## The traversals and algorithms on the graphs of `graphtest.cpp` -/

theorem directedGraph0_reachable : Reachable true directedGraph0 := by
  have h : Reachable true (connectResult (connectResult (connectResult
      (Graph.empty true) "A" "B" 1).1 "B" "C" 3).1 "A" "C" 8).1 := by
    apply reachable_connectResult
    apply reachable_connectResult
    apply reachable_connectResult
    exact Reachable.empty
  have e : (connectResult (connectResult (connectResult
      (Graph.empty true) "A" "B" 1).1 "B" "C" 3).1 "A" "C" 8).1 = directedGraph0 := by
    decide
  rw [← e]
  exact h

theorem chainGraph_reachable : Reachable true chainGraph := by
  have h : Reachable true (connectResult (connectResult
      (Graph.empty true) "A" "B" 1).1 "B" "C" 1).1 := by
    apply reachable_connectResult
    apply reachable_connectResult
    exact Reachable.empty
  have e : (connectResult (connectResult
      (Graph.empty true) "A" "B" 1).1 "B" "C" 1).1 = chainGraph := by
    decide
  rw [← e]
  exact h

theorem adj_of_mem (g : Graph) (u v : String) (vert : Vertex) (w : Int)
    (h : mapAt g.vertices u = some vert) (hm : (v, w) ∈ vert.connectedVerts) : Adj g u v :=
  ⟨vert, w, h, hm⟩

/-- C11: on the directed graph `A -> B (1)`, `B -> C (3)`, `A -> C (8)`, a graph that
`connect` builds, `dijkstra("A")` returns the weights `{B: 1}` and the predecessors
`{B: A}`: the vertex `C`, which is reachable from `A` (by `A -> B -> C` with total
weight `4`), has no entry in either map. -/
theorem dijkstra_graph0 :
    Reachable true directedGraph0 ∧
    (∀ n, dijkstra (n + 3) directedGraph0 "A" = .ok ([("B", 1)], [("B", "A")])) ∧
    Reaches directedGraph0 "A" "C" ∧
    mapAt [("B", (1 : Int))] "C" = none := by
  refine ⟨directedGraph0_reachable, fun n => rfl, ?_, rfl⟩
  exact Relation.ReflTransGen.single
    (adj_of_mem directedGraph0 "A" "C" (Vertex.mk "A" [("B", 1), ("C", 8)]) 8 rfl (by decide))

/-- C12: on the directed graph `A -> B (1)`, `A -> C (8)`, `B -> C (3)`,
`dfs("A", vertexPrinter)` returns with `A`, `B` and `C` marked in `visited` and with the
stream of `vertexPrinter` still empty: no label was notified, where the claim has the
sequence `A`, `B`, `C`. -/
theorem dfs_graph0_notifies_nothing :
    ∀ n, dfs vertexPrinter (n + 3) directedGraph0 "A" "" =
      .ok ({ directedGraph0 with visited := [("A", true), ("B", true), ("C", true)] }, "") := by
  intro n
  rfl

/-- C13: on the undirected graph `A - B (1)`, `B - C (3)`, `A - C (8)`,
`mstPrim(start, edgePrinter)` returns `-1` from each of `A`, `B` and `C`, with the
stream of `edgePrinter` still empty, where the claim has the value `4` and one
notification for each of the two tree edges. -/
theorem mstPrim_graph0 :
    Reachable false undirectedGraph0 ∧
    (∀ n, mstPrim edgePrinter (n + 8) undirectedGraph0 "A" "" = .ok (-1, "")) ∧
    (∀ n, mstPrim edgePrinter (n + 8) undirectedGraph0 "B" "" = .ok (-1, "")) ∧
    (∀ n, mstPrim edgePrinter (n + 8) undirectedGraph0 "C" "" = .ok (-1, "")) :=
  ⟨undirectedGraph0_reachable, fun _ => rfl, fun _ => rfl, fun _ => rfl⟩

/-- C15: for the label `X`, which is not a vertex, `dijkstra("X")` on the directed graph
of `graph0.txt` and `mstPrim("X", edgePrinter)` on the undirected one do not return:
`vertices.at("X")` throws `std::out_of_range` in the first iteration of the loop,
whatever the fuel. -/
theorem unknown_start_throws :
    (∀ n, dijkstra (n + 1) directedGraph0 "X" = .error .outOfRange) ∧
    (∀ n, mstPrim edgePrinter (n + 1) undirectedGraph0 "X" "" = .error .outOfRange) :=
  ⟨fun _ => rfl, fun _ => rfl⟩

/-- C16: for the label `X`, which is not a vertex of the directed graph of `graph0.txt`,
`dfs("X", vertexPrinter)` and `bfs("X", vertexPrinter)` do not return:
`vertices.at("X")` throws `std::out_of_range`, and at that moment `X` has been marked in
`visited`. -/
theorem unknown_start_traversal_throws :
    (∀ n, dfs vertexPrinter (n + 1) directedGraph0 "X" "" =
      .error (.outOfRange, { directedGraph0 with visited := [("X", true)] })) ∧
    (∀ n, bfs vertexPrinter (n + 1) directedGraph0 "X" "" =
      .error (.outOfRange, { directedGraph0 with visited := [("X", true)] })) :=
  ⟨fun _ => rfl, fun _ => rfl⟩

/-- C17: on the chain `A -> B`, `B -> C`, with no vertex marked beforehand,
`bfs("A", vertexPrinter)` returns with only `A` and `B` marked: `C` is reachable from
`A` and is not discovered, because every iteration scans the connections of the start
vertex. -/
theorem bfs_chain_misses_C :
    Reachable true chainGraph ∧ chainGraph.visited = [] ∧
    (∀ n, bfs vertexPrinter (n + 3) chainGraph "A" "" =
      .ok ({ chainGraph with visited := [("A", true), ("B", true)] }, "")) ∧
    Reaches chainGraph "A" "C" ∧
    mapAt [("A", true), ("B", true)] "C" = none := by
  refine ⟨chainGraph_reachable, rfl, fun n => rfl, ?_, rfl⟩
  exact Relation.ReflTransGen.tail
    (Relation.ReflTransGen.single
      (adj_of_mem chainGraph "A" "B" (Vertex.mk "A" [("B", 1)]) 1 rfl (by decide)))
    (adj_of_mem chainGraph "B" "C" (Vertex.mk "B" [("C", 1)]) 1 rfl (by decide))

/-- C18: on the chain `A -> B`, `B -> C`, `dfs("B", vertexPrinter)` on the fresh graph
marks `B` and `C`; called after `dfs("A", vertexPrinter)`, which leaves `A`, `B` and `C`
marked, it finds `C` marked, does not descend into it and marks nothing new; called
after `bfs("A", vertexPrinter)`, which leaves `A` and `B` marked, it marks `C` only. -/
theorem dfs_after_traversal :
    (∀ n, dfs vertexPrinter (n + 2) chainGraph "B" "" =
      .ok ({ chainGraph with visited := [("B", true), ("C", true)] }, "")) ∧
    (∀ n, dfs vertexPrinter (n + 3) chainGraph "A" "" =
      .ok ({ chainGraph with visited := [("A", true), ("B", true), ("C", true)] }, "")) ∧
    (∀ n, dfs vertexPrinter (n + 1)
        { chainGraph with visited := [("A", true), ("B", true), ("C", true)] } "B" "" =
      .ok ({ chainGraph with visited := [("A", true), ("B", true), ("C", true)] }, "")) ∧
    (∀ n, bfs vertexPrinter (n + 3) chainGraph "A" "" =
      .ok ({ chainGraph with visited := [("A", true), ("B", true)] }, "")) ∧
    (∀ n, dfs vertexPrinter (n + 2)
        { chainGraph with visited := [("A", true), ("B", true)] } "B" "" =
      .ok ({ chainGraph with visited := [("A", true), ("B", true), ("C", true)] }, "")) :=
  ⟨fun _ => rfl, fun _ => rfl, fun _ => rfl, fun _ => rfl, fun _ => rfl⟩

/-! ## Adjacency lists and edge records -/

theorem sum_indicator_of_nodup (keys : List String) (a : String) (hn : keys.Nodup)
    (ha : a ∈ keys) : (keys.map (fun k => if a = k then (1 : Int) else 0)).sum = 1 := by
  induction keys with
  | nil => simp at ha
  | cons x xs ih =>
    simp only [List.nodup_cons] at hn
    simp only [List.map_cons, List.sum_cons]
    by_cases hx : a = x
    · subst hx
      have hz : (xs.map (fun k => if a = k then (1 : Int) else 0)).sum = 0 := by
        apply List.sum_eq_zero
        intro y hy
        obtain ⟨k, hk, rfl⟩ := List.mem_map.1 hy
        have : ¬ a = k := fun e => hn.1 (e ▸ hk)
        simp [this]
      simp [hz]
    · have ha' : a ∈ xs := by
        rcases List.mem_cons.1 ha with h | h
        · exact absurd h hx
        · exact h
      simp [hx, ih hn.2 ha']

theorem sum_filter_length (keys : List String) (es : List Edge) (hn : keys.Nodup)
    (hes : ∀ e ∈ es, e.from_ ∈ keys) :
    (keys.map (fun k => ((es.filter (fun e => e.from_ == k)).length : Int))).sum =
      (es.length : Int) := by
  induction es with
  | nil => simp
  | cons e es ih =>
    have hfun : (fun k => ((List.filter (fun e => e.from_ == k) (e :: es)).length : Int)) =
        fun k => (if e.from_ = k then (1 : Int) else 0) +
          ((es.filter (fun e => e.from_ == k)).length : Int) := by
      funext k
      rw [List.filter_cons]
      by_cases h : e.from_ = k
      · simp [h]
        omega
      · simp [h]
    rw [hfun, List.sum_map_add, sum_indicator_of_nodup keys e.from_ hn
      (hes e (List.mem_cons_self _ _)), ih (fun x hx => hes x (List.mem_cons_of_mem _ hx))]
    simp
    omega

theorem mem_keys_of_contains (g : Graph) (l : String) (h : contains g l = true) :
    l ∈ g.vertices.map Prod.fst := by
  by_contra hn
  rw [(contains_false_iff g l).2 ((mapAt_eq_none_iff _ _).2 hn)] at h
  simp at h

/-- The out-degree of a vertex of a well-formed graph counts the edge records that
leave it. -/
theorem vertexDegree_eq_filter (g : Graph) (hg : WellFormed g) (l : String)
    (h : l ∈ g.vertices.map Prod.fst) :
    vertexDegree g l = ((g.edges.filter (fun e => e.from_ == l)).length : Int) := by
  cases hv : mapAt g.vertices l with
  | none => exact absurd h ((mapAt_eq_none_iff _ _).1 hv)
  | some v =>
    rw [vertexDegree_of_mapAt g l v hv, hg.adjacency l v hv]
    simp

/-- C19: in a graph reachable from the empty graph by `add`, `connect` and `disconnect`
calls, in either mode, the adjacency list of a vertex `v` holds an entry pointing at
`t` with weight `w` exactly when the edge collection holds the record `(v, t, w)` (it
lists the records leaving `v` in their order), both end points of every edge record are
vertices, and the values of `vertexDegree` summed over the vertices give
`edgesSize()`. -/
theorem adjacency_consistent (d : Bool) (g : Graph) (h : Reachable d g) :
    (∀ l v t w, mapAt g.vertices l = some v →
      ((t, w) ∈ v.connectedVerts ↔ Edge.mk l t w ∈ g.edges)) ∧
    (∀ l v, mapAt g.vertices l = some v →
      v.connectedVerts =
        (g.edges.filter (fun e => e.from_ == l)).map (fun e => (e.to_, e.weight))) ∧
    (∀ e ∈ g.edges, contains g e.from_ = true ∧ contains g e.to_ = true) ∧
    (g.vertices.map (fun kv => vertexDegree g kv.1)).sum = edgesSize g := by
  have hg := (reachable_wellFormed d g h).1
  refine ⟨fun l v t w hv => mem_adjacency_iff g hg l v hv t w, hg.adjacency, hg.endpoints, ?_⟩
  have h1 : g.vertices.map (fun kv => vertexDegree g kv.1) =
      (g.vertices.map Prod.fst).map
        (fun k => ((g.edges.filter (fun e => e.from_ == k)).length : Int)) := by
    rw [List.map_map]
    apply List.map_congr_left
    intro kv hkv
    exact vertexDegree_eq_filter g hg kv.1 (List.mem_map_of_mem _ hkv)
  rw [h1, sum_filter_length _ _ hg.keys_nodup
    (fun e he => mem_keys_of_contains g _ (hg.endpoints e he).1)]
  rfl

/-- C19 on `testGraphBasic`: the degrees `3, 0, 0, 0, 0` of `a` to `e` sum to the three
edges, and the entry `(d, 40)` of `a` is the record `(a, d, 40)`. -/
theorem adjacency_consistent_witness :
    (basicGraph.vertices.map (fun kv => vertexDegree basicGraph kv.1)).sum =
      edgesSize basicGraph ∧
    Edge.mk "a" "d" 40 ∈ basicGraph.edges :=
  ⟨(adjacency_consistent true basicGraph basicGraph_reachable).2.2.2,
   ((adjacency_consistent true basicGraph basicGraph_reachable).1 "a"
      (Vertex.mk "a" [("b", 10), ("d", 40), ("c", 20)]) "d" 40 rfl).1 (by decide)⟩

/-! ## An unknown start label -/

theorem dfs_of_unknown {σ : Type} (visit : String → σ → σ) (n : Nat) (g : Graph)
    (X : String) (out : σ) (h : mapAt g.vertices X = none) :
    dfs visit (n + 1) g X out =
      .error (.outOfRange, { g with visited := mapAssign g.visited X true }) := by
  simp only [dfs, h]

theorem bfs_of_unknown {σ : Type} (visit : String → σ → σ) (n : Nat) (g : Graph)
    (X : String) (out : σ) (h : mapAt g.vertices X = none) :
    bfs visit (n + 1) g X out =
      .error (.outOfRange, { g with visited := mapAssign g.visited X true }) := by
  simp only [bfs, bfsLoop, h]

theorem dijkstra_of_unknown (n : Nat) (g : Graph) (X : String)
    (h : mapAt g.vertices X = none) : dijkstra (n + 1) g X = .error .outOfRange := by
  simp only [dijkstra, dijkstraLoop, setInsert, h]

theorem mstPrim_of_unknown {σ : Type} (visit : String → String → Int → σ → σ) (n : Nat)
    (g : Graph) (X : String) (out : σ) (h : mapAt g.vertices X = none) :
    mstPrim visit (n + 1) g X out = .error .outOfRange := by
  simp [mstPrim, mstPrimLoop, pqPush, mapCount, mapAt, h]

/-! ## `mstPrim` and `mstKruskal` -/

theorem mapCount_ne_one_iff {V : Type} (m : List (String × V)) (k : String) :
    mapCount m k ≠ 1 ↔ mapAt m k = none := by
  unfold mapCount
  cases mapAt m k <;> simp

theorem mapCount_eq_zero_iff {V : Type} (m : List (String × V)) (k : String) :
    mapCount m k = 0 ↔ mapAt m k = none := by
  unfold mapCount
  cases mapAt m k <;> simp

theorem length_pqPush (q : List (Int × String)) (x : Int × String) :
    (pqPush q x).length = q.length + 1 := by
  induction q with
  | nil => rfl
  | cons y q ih =>
    simp only [pqPush]
    split
    · simp
    · simp [ih]

theorem mem_pqPush (q : List (Int × String)) (x y : Int × String) (h : y ∈ pqPush q x) :
    y = x ∨ y ∈ q := by
  induction q with
  | nil =>
    simp only [pqPush, List.mem_singleton] at h
    exact Or.inl h
  | cons z q ih =>
    simp only [pqPush] at h
    split at h
    · rcases List.mem_cons.1 h with h | h
      · exact Or.inl h
      · exact Or.inr h
    · rcases List.mem_cons.1 h with h | h
      · exact Or.inr (h ▸ List.mem_cons_self _ _)
      · rcases ih h with h' | h'
        · exact Or.inl h'
        · exact Or.inr (List.mem_cons_of_mem _ h')

theorem primScan_spec (g : Graph) (adj : List (String × Int)) :
    ∀ q : List (Int × String),
      (primScan g q adj).length ≤ q.length + adj.length ∧
      ∀ y ∈ primScan g q adj, y ∈ q ∨ ∃ s ∈ adj, y.2 = s.1 := by
  induction adj with
  | nil =>
    intro q
    exact ⟨by simp [primScan], fun y hy => Or.inl hy⟩
  | cons s adj ih =>
    intro q
    have hstep : primScan g q (s :: adj) =
        primScan g (if mapCount g.visited s.1 ≠ 1 then pqPush q (s.2, s.1) else q) adj := rfl
    rw [hstep]
    obtain ⟨h1, h2⟩ := ih (if mapCount g.visited s.1 ≠ 1 then pqPush q (s.2, s.1) else q)
    constructor
    · have : (if mapCount g.visited s.1 ≠ 1 then pqPush q (s.2, s.1) else q).length
          ≤ q.length + 1 := by
        split
        · rw [length_pqPush]
        · omega
      simp only [List.length_cons]
      omega
    · intro y hy
      rcases h2 y hy with h | ⟨t, ht, e⟩
      · split at h
        · rcases mem_pqPush q _ y h with h' | h'
          · exact Or.inr ⟨s, List.mem_cons_self _ _, by rw [h']⟩
          · exact Or.inl h'
        · exact Or.inl h
      · exact Or.inr ⟨t, List.mem_cons_of_mem _ ht, e⟩

theorem unvisitedDegrees_cons (kv : String × Vertex) (vs : List (String × Vertex))
    (visitedP : List (String × Bool)) :
    unvisitedDegrees (kv :: vs) visitedP =
      (if (mapAt visitedP kv.1).isNone then kv.2.connectedVerts.length else 0) +
        unvisitedDegrees vs visitedP := by
  unfold unvisitedDegrees
  rw [List.filter_cons]
  split <;> simp

theorem unvisitedDegrees_mono (vs : List (String × Vertex)) (visitedP : List (String × Bool))
    (vert : String) :
    unvisitedDegrees vs (mapAssign visitedP vert true) ≤ unvisitedDegrees vs visitedP := by
  induction vs with
  | nil => simp [unvisitedDegrees]
  | cons kv vs ih =>
    rw [unvisitedDegrees_cons, unvisitedDegrees_cons, mapAt_mapAssign]
    by_cases h : vert = kv.1
    · simp only [h, if_true, Option.isNone_some, Bool.false_eq_true, if_false]
      rw [h] at ih
      omega
    · simp only [h, if_false]
      omega

/-- Marking a vertex takes its connections out of the count. -/
theorem unvisitedDegrees_mark (vs : List (String × Vertex)) (visitedP : List (String × Bool))
    (vert : String) (v : Vertex) (hv : mapAt vs vert = some v)
    (hn : mapAt visitedP vert = none) :
    unvisitedDegrees vs (mapAssign visitedP vert true) + v.connectedVerts.length ≤
      unvisitedDegrees vs visitedP := by
  induction vs with
  | nil => simp [mapAt] at hv
  | cons kv vs ih =>
    obtain ⟨k, x⟩ := kv
    rw [unvisitedDegrees_cons, unvisitedDegrees_cons, mapAt_mapAssign]
    by_cases h : k = vert
    · subst h
      simp only [mapAt, if_true, Option.some.injEq] at hv
      subst hv
      have := unvisitedDegrees_mono vs visitedP k
      simp only [if_true, Option.isNone_some, Bool.false_eq_true, if_false, hn,
        Option.isNone_none]
      omega
    · have h' : ¬ vert = k := fun e => h e.symm
      simp only [mapAt, h, if_false] at hv
      have := ih hv
      simp only [h', if_false]
      omega

/-- Whatever `mstPrim` returns is `-1`, with the state of the callback untouched. -/
theorem mstPrimLoop_of_ok {σ : Type} (visit : String → String → Int → σ → σ) :
    ∀ (fuel : Nat) (g : Graph) (q : List (Int × String)) (visitedP : List (String × Bool))
      (cost : Int) (out : σ) (r : Int × σ),
      mstPrimLoop visit fuel g q visitedP cost out = .ok r → r = (-1, out) := by
  intro fuel
  induction fuel with
  | zero =>
    intro g q visitedP cost out r h
    simp [mstPrimLoop] at h
  | succ fuel ih =>
    intro g q visitedP cost out r h
    cases q with
    | nil =>
      simp only [mstPrimLoop] at h
      exact (Except.ok.inj h).symm
    | cons tmp q' =>
      simp only [mstPrimLoop] at h
      split at h
      · split at h
        · simp at h
        · exact ih _ _ _ _ _ _ h
      · exact ih _ _ _ _ _ _ h

/-- With more fuel than the queue is long plus the connections of the vertices not yet
in `visitedP`, the loop of `mstPrim` runs to its end. -/
theorem mstPrimLoop_returns {σ : Type} (visit : String → String → Int → σ → σ) (g : Graph)
    (hg : TargetsBound g) :
    ∀ (fuel : Nat) (q : List (Int × String)) (visitedP : List (String × Bool))
      (cost : Int) (out : σ),
      (∀ x ∈ q, mapAt g.vertices x.2 ≠ none) →
      q.length + unvisitedDegrees g.vertices visitedP < fuel →
      mstPrimLoop visit fuel g q visitedP cost out = .ok (-1, out) := by
  intro fuel
  induction fuel with
  | zero =>
    intro q visitedP cost out _ h
    omega
  | succ fuel ih =>
    intro q visitedP cost out hq hfuel
    cases q with
    | nil => rfl
    | cons tmp q' =>
      simp only [mstPrimLoop]
      simp only [List.length_cons] at hfuel
      by_cases hc : mapCount visitedP tmp.2 ≠ 1
      · have hn := (mapCount_ne_one_iff visitedP tmp.2).1 hc
        rw [if_pos hc]
        cases hv : mapAt g.vertices tmp.2 with
        | none => exact absurd hv (hq tmp (List.mem_cons_self _ _))
        | some v =>
          show mstPrimLoop visit fuel g (primScan g q' v.connectedVerts)
            (mapAssign visitedP tmp.2 true) (int32Add cost tmp.1) out = .ok (-1, out)
          obtain ⟨hlen, hmem⟩ := primScan_spec g v.connectedVerts q'
          have hmark := unvisitedDegrees_mark g.vertices visitedP tmp.2 v hv hn
          apply ih
          · intro x hx
            rcases hmem x hx with h | ⟨s, hs, e⟩
            · exact hq x (List.mem_cons_of_mem _ h)
            · rw [e]
              exact hg tmp.2 v hv s hs
          · omega
      · rw [if_neg hc]
        apply ih
        · intro x hx
          exact hq x (List.mem_cons_of_mem _ hx)
        · omega

theorem targetsBound_of_wellFormed (g : Graph) (hg : WellFormed g) : TargetsBound g := by
  intro k v hv s hs
  obtain ⟨t, w⟩ := s
  have he := (mem_adjacency_iff g hg k v hv t w).1 hs
  have hc := (hg.endpoints _ he).2
  obtain ⟨v', hv'⟩ := (contains_true_iff g t).1 hc
  simp [hv']

/-- On every reachable graph and for every start label in it, `mstPrim(start, visit)`
returns (with enough fuel for one iteration per queue entry), and what it returns is the
sentinel `-1`, whatever the edges and their weights are; `visit` is not called. -/
theorem mstPrim_returns_sentinel {σ : Type} (visit : String → String → Int → σ → σ)
    (d : Bool) (g : Graph) (hr : Reachable d g) (start : String)
    (hs : contains g start = true) (out : σ) :
    ∃ N, ∀ n, mstPrim visit (N + n) g start out = .ok (-1, out) := by
  have hg := (reachable_wellFormed d g hr).1
  refine ⟨unvisitedDegrees g.vertices [] + 2, fun n => ?_⟩
  unfold mstPrim
  apply mstPrimLoop_returns visit g (targetsBound_of_wellFormed g hg)
  · intro x hx
    simp only [pqPush, List.mem_singleton] at hx
    rw [hx]
    obtain ⟨v, hv⟩ := (contains_true_iff g start).1 hs
    simp [hv]
  · simp only [pqPush, List.length_singleton]
    omega

theorem unmarkedCount_cons (kv : String × Vertex) (vs : List (String × Vertex))
    (V : List (String × Bool)) :
    unmarkedCount (kv :: vs) V =
      (if (mapAt V kv.1).isNone then 1 else 0) + unmarkedCount vs V := by
  unfold unmarkedCount
  rw [List.filter_cons]
  split
  · simp
    omega
  · simp

theorem unmarkedCount_mono (vs : List (String × Vertex)) (V V' : List (String × Bool))
    (h : ∀ k, mapAt V k ≠ none → mapAt V' k ≠ none) :
    unmarkedCount vs V' ≤ unmarkedCount vs V := by
  induction vs with
  | nil => simp [unmarkedCount]
  | cons kv vs ih =>
    rw [unmarkedCount_cons, unmarkedCount_cons]
    cases h1 : mapAt V kv.1 with
    | none =>
      simp only [Option.isNone_none, if_true]
      split <;> omega
    | some b =>
      have := h kv.1 (by simp [h1])
      cases h2 : mapAt V' kv.1 with
      | none => exact absurd h2 this
      | some b' =>
        simp only [Option.isNone_some, Bool.false_eq_true, if_false]
        omega

theorem mapAssign_keeps (V : List (String × Bool)) (u : String) (k : String)
    (h : mapAt V k ≠ none) : mapAt (mapAssign V u true) k ≠ none := by
  rw [mapAt_mapAssign]
  split
  · simp
  · exact h

/-- Marking a vertex that has no entry leaves fewer vertices without an entry. -/
theorem unmarkedCount_mark (vs : List (String × Vertex)) (V : List (String × Bool))
    (u : String) (hu : mapAt vs u ≠ none) (hn : mapAt V u = none) :
    unmarkedCount vs (mapAssign V u true) < unmarkedCount vs V := by
  induction vs with
  | nil => simp [mapAt] at hu
  | cons kv vs ih =>
    obtain ⟨k, x⟩ := kv
    rw [unmarkedCount_cons, unmarkedCount_cons, mapAt_mapAssign]
    by_cases h : k = u
    · subst h
      have := unmarkedCount_mono vs V (mapAssign V k true) (fun j hj => mapAssign_keeps V k j hj)
      simp only [if_true, Option.isNone_some, Bool.false_eq_true, if_false, hn,
        Option.isNone_none]
      omega
    · have h' : ¬ u = k := fun e => h e.symm
      have hu' : mapAt vs u ≠ none := by
        simpa [mapAt, h] using hu
      have := ih hu'
      simp only [h', if_false]
      omega

theorem dfs_succ {σ : Type} (visit : String → σ → σ) (fuel : Nat) (g : Graph) (u : String)
    (out : σ) :
    dfs visit (fuel + 1) g u out =
      match mapAt g.vertices u with
      | none => .error (.outOfRange, { g with visited := mapAssign g.visited u true })
      | some v =>
        v.connectedVerts.foldlM (fun (st : Graph × σ) s =>
          if mapCount st.1.visited s.1 = 0 then dfs visit fuel st.1 s.1 st.2
          else .ok st) ({ g with visited := mapAssign g.visited u true }, out) := rfl

theorem dfsPost_refl (g : Graph) (u : String) (V : List (String × Bool)) :
    DfsPost g u V V :=
  ⟨fun _ h => h, fun _ h h' => absurd h' h, fun _ h h' => absurd h' h, fun h => h⟩

/-- The `for` loop of `dfs` over connections `l` of `u`, given that the nested calls
behave: it returns, every label of `l` has an entry afterwards, and the run satisfies
`DfsPost`. -/
theorem dfs_loop {σ : Type} (visit : String → σ → σ) (g : Graph) (hg : TargetsBound g)
    (fuel : Nat)
    (ih : ∀ (V : List (String × Bool)) (u : String) (out : σ),
      mapAt g.vertices u ≠ none → mapAt V u = none → unmarkedCount g.vertices V ≤ fuel →
      ∃ V', dfs visit fuel { g with visited := V } u out = .ok ({ g with visited := V' }, out) ∧
        mapAt V' u ≠ none ∧ DfsPost g u V V')
    (u : String) (out : σ) :
    ∀ (l : List (String × Int)) (V : List (String × Bool)),
      (∀ s ∈ l, Adj g u s.1) → unmarkedCount g.vertices V ≤ fuel →
      ∃ V', l.foldlM (fun (st : Graph × σ) s =>
          if mapCount st.1.visited s.1 = 0 then dfs visit fuel st.1 s.1 st.2
          else .ok st) ({ g with visited := V }, out) = .ok ({ g with visited := V' }, out) ∧
        (∀ s ∈ l, mapAt V' s.1 ≠ none) ∧ DfsPost g u V V' := by
  intro l
  induction l with
  | nil =>
    intro V _ _
    exact ⟨V, rfl, by simp, dfsPost_refl g u V⟩
  | cons s l ihl =>
    intro V hadj hcount
    have hs : Adj g u s.1 := hadj s (List.mem_cons_self _ _)
    have hl : ∀ t ∈ l, Adj g u t.1 := fun t ht => hadj t (List.mem_cons_of_mem _ ht)
    by_cases hc : mapCount V s.1 = 0
    · have hn : mapAt V s.1 = none := (mapCount_eq_zero_iff V s.1).1 hc
      have hkey : mapAt g.vertices s.1 ≠ none := by
        obtain ⟨vert, w, hv, hm⟩ := hs
        exact hg u vert hv (s.1, w) hm
      obtain ⟨V₁, h1, hm1, post1⟩ := ih V s.1 out hkey hn hcount
      have hcount1 : unmarkedCount g.vertices V₁ ≤ fuel :=
        Nat.le_trans (unmarkedCount_mono g.vertices V V₁ post1.keeps) hcount
      obtain ⟨V', h2, hm2, post2⟩ := ihl V₁ hl hcount1
      refine ⟨V', ?_, ?_, ?_⟩
      · rw [List.foldlM_cons]
        simp only [hc, if_true, h1]
        exact h2
      · intro t ht
        rcases List.mem_cons.1 ht with e | ht'
        · rw [e]
          exact post2.keeps s.1 hm1
        · exact hm2 t ht'
      · refine ⟨fun k hk => post2.keeps k (post1.keeps k hk), ?_, ?_,
          fun h => post2.allTrue (post1.allTrue h)⟩
        · intro k hk hkV
          cases hk1 : mapAt V₁ k with
          | none => exact post2.reach k hk hk1
          | some b =>
            exact Relation.ReflTransGen.head hs (post1.reach k (by simp [hk1]) hkV)
        · intro k hk hkV z hz
          cases hk1 : mapAt V₁ k with
          | none => exact post2.closed k hk hk1 z hz
          | some b =>
            exact post2.keeps z (post1.closed k (by simp [hk1]) hkV z hz)
    · have hm : mapAt V s.1 ≠ none := fun e => hc ((mapCount_eq_zero_iff V s.1).2 e)
      obtain ⟨V', h2, hm2, post2⟩ := ihl V hl hcount
      refine ⟨V', ?_, ?_, post2⟩
      · rw [List.foldlM_cons]
        simp only [hc, if_false]
        exact h2
      · intro t ht
        rcases List.mem_cons.1 ht with e | ht'
        · rw [e]
          exact post2.keeps s.1 hm
        · exact hm2 t ht'

/-- A call of `dfs` on a vertex without an entry, with fuel for every vertex that has no
entry yet: it returns, the vertex has an entry afterwards, and the run satisfies
`DfsPost`; the state of the callback is untouched. -/
theorem dfs_spec {σ : Type} (visit : String → σ → σ) (g : Graph) (hg : TargetsBound g) :
    ∀ (fuel : Nat) (V : List (String × Bool)) (u : String) (out : σ),
      mapAt g.vertices u ≠ none → mapAt V u = none → unmarkedCount g.vertices V ≤ fuel →
      ∃ V', dfs visit fuel { g with visited := V } u out = .ok ({ g with visited := V' }, out) ∧
        mapAt V' u ≠ none ∧ DfsPost g u V V' := by
  intro fuel
  induction fuel with
  | zero =>
    intro V u out hu hn hcount
    have := unmarkedCount_mark g.vertices V u hu hn
    omega
  | succ fuel ih =>
    intro V u out hu hn hcount
    cases hv : mapAt g.vertices u with
    | none => exact absurd hv hu
    | some v =>
      have hcount0 : unmarkedCount g.vertices (mapAssign V u true) ≤ fuel := by
        have := unmarkedCount_mark g.vertices V u hu hn
        omega
      obtain ⟨V', h1, hm, post⟩ := dfs_loop visit g hg fuel ih u out v.connectedVerts
        (mapAssign V u true) (fun s hs => ⟨v, s.2, hv, hs⟩) hcount0
      have hu0 : mapAt (mapAssign V u true) u ≠ none := by
        simp [mapAt_mapAssign]
      refine ⟨V', ?_, post.keeps u hu0, ?_⟩
      · rw [dfs_succ]
        simp only [hv]
        exact h1
      · refine ⟨fun k hk => post.keeps k (mapAssign_keeps V u k hk), ?_, ?_, ?_⟩
        · intro k hk hkV
          by_cases e : u = k
          · rw [e]
            exact Relation.ReflTransGen.refl
          · apply post.reach k hk
            rw [mapAt_mapAssign, if_neg e]
            exact hkV
        · intro k hk hkV z hz
          by_cases e : u = k
          · obtain ⟨vert, w, hvert, hmem⟩ := hz
            rw [← e, hv] at hvert
            rw [← Option.some.inj hvert] at hmem
            exact hm (z, w) hmem
          · apply post.closed k hk _ z hz
            rw [mapAt_mapAssign, if_neg e]
            exact hkV
        · intro hall
          apply post.allTrue
          intro x hx
          rcases mem_mapAssign V u true x hx with e | hx'
          · rw [e]
          · exact hall x hx'

theorem unmarkedCount_nil (vs : List (String × Vertex)) : unmarkedCount vs [] = vs.length := by
  unfold unmarkedCount
  rw [List.filter_eq_self.2]
  intro kv _
  rfl

theorem reachable_visited (d : Bool) (g : Graph) (h : Reachable d g) : g.visited = [] := by
  induction h with
  | empty => rfl
  | add label _ ih => rw [add_visited, ih]
  | @connect g₀ g₁ r fuel a b w _ hstep ih =>
    have hx := connect_eq_of_some fuel g₀ a b w _ hstep
    rcases connectResult_cases g₀ a b w with ⟨e, -⟩ | ⟨e, -⟩ | ⟨e, -⟩ <;>
      rw [e] at hx <;> rw [(Prod.mk.inj hx).1] <;> simp [connectStep_visited, ih]
  | @disconnect g₀ g₁ r fuel a b hr hstep ih =>
    have hx := disconnect_eq_of_some fuel g₀ (reachable_wellFormed d g₀ hr).1 a b _ hstep
    rcases disconnectResult_cases g₀ a b with ⟨e, -⟩ | ⟨e, -⟩ | ⟨e, -⟩ <;>
      rw [e] at hx <;> rw [(Prod.mk.inj hx).1] <;> simp [removeEdge, ih]

/-- C20: on a graph reachable by `add`, `connect` and `disconnect` calls, for a start
label in the graph and with the map `visited` empty, `dfs(start, visit)` returns (a
nesting depth of the number of vertices is enough), it changes `visited` only, and
afterwards the keys of `visited` are exactly the labels reachable from `start` along
adjacency entries, `start` included, each marked `true`. -/
theorem dfs_marks_reachable {σ : Type} (visit : String → σ → σ) (d : Bool) (g : Graph)
    (hr : Reachable d g) (start : String) (hs : contains g start = true)
    (hv : g.visited = []) (out : σ) :
    ∀ n, ∃ V', dfs visit (g.vertices.length + n) g start out =
        .ok ({ g with visited := V' }, out) ∧
      (∀ k, k ∈ V'.map Prod.fst ↔ Reaches g start k) ∧
      (∀ x ∈ V', x.2 = true) := by
  intro n
  have hg := targetsBound_of_wellFormed g (reachable_wellFormed d g hr).1
  have hkey : mapAt g.vertices start ≠ none := by
    obtain ⟨v, h⟩ := (contains_true_iff g start).1 hs
    simp [h]
  obtain ⟨V', h1, hm, post⟩ := dfs_spec visit g hg (g.vertices.length + n) [] start out hkey rfl
    (by rw [unmarkedCount_nil]; omega)
  have hgeq : ({ g with visited := [] } : Graph) = g := by
    rw [← hv]
  rw [hgeq] at h1
  refine ⟨V', h1, ?_, post.allTrue (by simp)⟩
  intro k
  constructor
  · intro hk
    apply post.reach k _ rfl
    intro e
    exact (mapAt_eq_none_iff V' k).1 e hk
  · intro hreach
    have : mapAt V' k ≠ none := by
      induction hreach with
      | refl => exact hm
      | tail _ hstep ihr => exact post.closed _ ihr rfl _ hstep
    by_contra hk
    exact this ((mapAt_eq_none_iff V' k).2 hk)

/-- C20 on the directed graph `A -> B (1)`, `B -> C (3)`, `A -> C (8)` with the callback
`vertexPrinter`: `dfs("B")` returns and marks the labels reachable from `B`. -/
theorem dfs_marks_reachable_witness :
    ∃ V', dfs vertexPrinter 3 directedGraph0 "B" "" =
        .ok ({ directedGraph0 with visited := V' }, "") ∧
      (∀ k, k ∈ V'.map Prod.fst ↔ Reaches directedGraph0 "B" k) ∧
      (∀ x ∈ V', x.2 = true) :=
  dfs_marks_reachable vertexPrinter true directedGraph0 directedGraph0_reachable "B"
    (by decide) rfl "" 0

/-! ## `connect` followed by `disconnect` -/

theorem filter_append_new_edge (es : List Edge) (a b : String) (w : Int)
    (h : ∀ e ∈ es, ¬ (e.from_ = a ∧ e.to_ = b)) :
    (es ++ [Edge.mk a b w]).filter (fun s => !(s.from_ == a && s.to_ == b)) = es := by
  rw [List.filter_append]
  have h1 : es.filter (fun s => !(s.from_ == a && s.to_ == b)) = es := by
    apply List.filter_eq_self.2
    intro e he
    have := h e he
    simp only [Bool.not_eq_true', Bool.and_eq_false_iff, beq_eq_false_iff_ne, ne_eq]
    by_cases hf : e.from_ = a
    · exact Or.inr (fun ht => this ⟨hf, ht⟩)
    · exact Or.inl hf
  rw [h1]
  simp

theorem filter_keep_other_edge (es : List Edge) (a b : String) (w : Int) (hab : a ≠ b)
    (h : ∀ e ∈ es, ¬ (e.from_ = b ∧ e.to_ = a)) :
    (es ++ [Edge.mk a b w]).filter (fun s => !(s.from_ == b && s.to_ == a)) =
      es ++ [Edge.mk a b w] := by
  apply List.filter_eq_self.2
  intro e he
  simp only [Bool.not_eq_true', Bool.and_eq_false_iff, beq_eq_false_iff_ne, ne_eq]
  rcases List.mem_append.1 he with he | he
  · have := h e he
    by_cases hf : e.from_ = b
    · exact Or.inr (fun ht => this ⟨hf, ht⟩)
    · exact Or.inl hf
  · rw [List.mem_singleton.1 he]
    exact Or.inl hab

theorem removeEdge_isDirectional (g : Graph) (a b : String) :
    (removeEdge g a b).isDirectional = g.isDirectional := rfl

theorem removeEdge_visited (g : Graph) (a b : String) :
    (removeEdge g a b).visited = g.visited := rfl

/-- The graphs `connect(a, b, w)` and then `disconnect(a, b)` lead to, from a reachable
graph without the edge `a -> b`: the edge records are the old ones, and the vertices
are the old ones with `a` and `b`. -/
theorem connect_then_disconnect (d : Bool) (g : Graph) (hr : Reachable d g) (a b : String)
    (w : Int) (hab : a ≠ b) (hc : containsEdge g a b w = false) :
    ∃ g1 g2, connectResult g a b w = (g1, true) ∧ disconnectResult g1 a b = (g2, true) ∧
      g2.edges = g.edges ∧
      (∀ l, contains g2 l = (decide (a = l) || decide (b = l) || contains g l)) ∧
      g2.isDirectional = g.isDirectional ∧ g2.visited = g.visited := by
  have hwf := reachable_wellFormed d g hr
  have hba : ¬ b = a := fun e => hab e.symm
  have hno : ∀ e ∈ g.edges, ¬ (e.from_ = a ∧ e.to_ = b) := by
    intro e he h
    rw [(containsEdge_iff g a b w).2 ⟨e, he, h⟩] at hc
    simp at hc
  cases hd : g.isDirectional with
  | true =>
    have h1 : connectResult g a b w = (connectStep g a b w, true) := by
      rcases connectResult_cases g a b w with ⟨_, h | h⟩ | ⟨e, -⟩ | ⟨_, _, _, h, _⟩
      · rw [hc] at h
        simp at h
      · exact absurd h hab
      · exact e
      · rw [hd] at h
        simp at h
    have hc1 : containsEdge (connectStep g a b w) a b 0 = true := by
      simp [containsEdge_connectStep]
    have hd1 : (connectStep g a b w).isDirectional = true := by
      rw [connectStep_isDirectional, hd]
    have h2 : disconnectResult (connectStep g a b w) a b =
        (removeEdge (connectStep g a b w) a b, true) := by
      rcases disconnectResult_cases (connectStep g a b w) a b with
        ⟨_, h | h⟩ | ⟨e, -⟩ | ⟨_, _, _, h, _⟩
      · rw [hc1] at h
        simp at h
      · exact absurd h hab
      · exact e
      · rw [hd1] at h
        simp at h
    refine ⟨_, _, h1, h2, ?_, ?_, ?_, ?_⟩
    · simp only [removeEdge, connectStep_edges]
      exact filter_append_new_edge g.edges a b w hno
    · intro l
      rw [contains_removeEdge, contains_connectStep]
    · rw [removeEdge_isDirectional]
      exact hd1
    · rw [removeEdge_visited]
      exact connectStep_visited g a b w
  | false =>
    have hd' : d = false := by rw [← hwf.2, hd]
    subst hd'
    have hm := reachable_mirrored g hr
    have hno' : ∀ e ∈ g.edges, ¬ (e.from_ = b ∧ e.to_ = a) := by
      intro e he h
      exact hno _ (hm e he) ⟨h.2, h.1⟩
    have h1 : connectResult g a b w =
        (connectStep (connectStep g a b w) b a w, true) := by
      rcases connectResult_undirected g hd hm a b w with ⟨_, h | h⟩ | ⟨e, -⟩
      · rw [hc] at h
        simp at h
      · exact absurd h hab
      · exact e
    have hr1 : Reachable false (connectStep (connectStep g a b w) b a w) := by
      have := reachable_connectResult false g hr a b w
      rw [h1] at this
      exact this
    have hd1 : (connectStep (connectStep g a b w) b a w).isDirectional = false := by
      rw [connectStep_isDirectional, connectStep_isDirectional, hd]
    have hc1 : containsEdge (connectStep (connectStep g a b w) b a w) a b 0 = true := by
      simp [containsEdge_connectStep]
    have h2 : disconnectResult (connectStep (connectStep g a b w) b a w) a b =
        (removeEdge (removeEdge (connectStep (connectStep g a b w) b a w) a b) b a, true) := by
      rcases disconnectResult_undirected _ hd1 (reachable_mirrored _ hr1) a b with
        ⟨_, h | h⟩ | ⟨e, -⟩
      · rw [hc1] at h
        simp at h
      · exact absurd h hab
      · exact e
    refine ⟨_, _, h1, h2, ?_, ?_, ?_, ?_⟩
    · simp only [removeEdge, connectStep_edges]
      have e1 : (g.edges ++ [Edge.mk a b w] ++ [Edge.mk b a w]).filter
          (fun s => !(s.from_ == a && s.to_ == b)) = g.edges ++ [Edge.mk b a w] := by
        rw [List.filter_append, filter_append_new_edge g.edges a b w hno]
        simp [hba]
      rw [e1]
      exact filter_append_new_edge g.edges b a w hno'
    · intro l
      rw [contains_removeEdge, contains_removeEdge, contains_connectStep,
        contains_connectStep]
      cases decide (a = l) <;> cases decide (b = l) <;> simp
    · rw [removeEdge_isDirectional, removeEdge_isDirectional]
      exact hd1
    · rw [removeEdge_visited, removeEdge_visited, connectStep_visited, connectStep_visited]

/-- C21: on a graph reachable by `add`, `connect` and `disconnect` calls, in either mode,
for labels `a != b` without an edge record `a -> b`, `connect(a, b, w)` returns true and
`disconnect(a, b)` on the result returns true; afterwards the edge collection is the old
one, record by record, every vertex of the old graph is bound to the vertex it was bound
to (same adjacency list in the same order), and the only new labels are `a` and `b`
where they were absent, bound to vertices with no connections. -/
theorem connect_disconnect_roundtrip (d : Bool) (g : Graph) (hr : Reachable d g)
    (a b : String) (w : Int) (hab : a ≠ b)
    (hne : ¬ ∃ e ∈ g.edges, e.from_ = a ∧ e.to_ = b) :
    ∃ g1 g2, (∀ n, connect (n + 3) g a b w = some (g1, true)) ∧
      (∀ n, disconnect (n + 3) g1 a b = some (g2, true)) ∧
      g2.edges = g.edges ∧
      (∀ l v, mapAt g.vertices l = some v → mapAt g2.vertices l = some v) ∧
      (∀ l, mapAt g.vertices l = none →
        mapAt g2.vertices l = if l = a ∨ l = b then some (Vertex.mk l []) else none) ∧
      g2.isDirectional = g.isDirectional ∧ g2.visited = g.visited := by
  have hc : containsEdge g a b w = false := by
    cases h : containsEdge g a b w
    · rfl
    · exact absurd ((containsEdge_iff g a b w).1 h) hne
  have hg := (reachable_wellFormed d g hr).1
  obtain ⟨g1, g2, h1, h2, hedges, hcont, hdir, hvis⟩ :=
    connect_then_disconnect d g hr a b w hab hc
  have hr1 : Reachable d g1 := by
    have := reachable_connectResult d g hr a b w
    rw [h1] at this
    exact this
  have hg1 := (reachable_wellFormed d g1 hr1).1
  have hr2 : Reachable d g2 := by
    have := reachable_disconnectResult d g1 hr1 a b
    rw [h2] at this
    exact this
  have hg2 := (reachable_wellFormed d g2 hr2).1
  have hbound : ∀ l, contains g2 l = true → ∃ v', mapAt g2.vertices l = some v' ∧
      v'.label = l ∧ v'.connectedVerts =
        (g.edges.filter (fun e => e.from_ == l)).map (fun e => (e.to_, e.weight)) := by
    intro l hl
    obtain ⟨v', hv'⟩ := (contains_true_iff g2 l).1 hl
    refine ⟨v', hv', hg2.label_eq l v' hv', ?_⟩
    rw [hg2.adjacency l v' hv', hedges]
  refine ⟨g1, g2, ?_, ?_, hedges, ?_, ?_, hdir, hvis⟩
  · intro n
    rw [connect_eq n g a b w, h1]
  · intro n
    rw [disconnect_eq n g1 hg1 a b, h2]
  · intro l v hv
    have hl : contains g2 l = true := by
      rw [hcont l, (contains_true_iff g l).2 ⟨v, hv⟩]
      simp
    obtain ⟨v', hv', hlab, hadj⟩ := hbound l hl
    rw [hv']
    congr 1
    obtain ⟨lab, cv⟩ := v
    obtain ⟨lab', cv'⟩ := v'
    have e1 : lab = l := hg.label_eq l _ hv
    have e2 : cv = (g.edges.filter (fun e => e.from_ == l)).map
        (fun e => (e.to_, e.weight)) := hg.adjacency l _ hv
    simp only at hlab hadj
    rw [hlab, hadj, e1, e2]
  · intro l hl
    by_cases hab' : l = a ∨ l = b
    · rw [if_pos hab']
      have hl2 : contains g2 l = true := by
        rw [hcont l]
        rcases hab' with e | e
        · simp [e]
        · simp [e]
      obtain ⟨v', hv', hlab, hadj⟩ := hbound l hl2
      rw [hv']
      congr 1
      obtain ⟨lab', cv'⟩ := v'
      simp only at hlab hadj
      rw [hlab, hadj, no_edge_from_absent g hg l hl]
      rfl
    · rw [if_neg hab']
      apply (contains_false_iff g2 l).1
      rw [hcont l, (contains_false_iff g l).2 hl]
      have h1' : ¬ a = l := fun e => hab' (Or.inl e.symm)
      have h2' : ¬ b = l := fun e => hab' (Or.inr e.symm)
      simp [h1', h2']

/-- C21 on `testGraphBasic`: `connect("b", "f", 7)` creates the vertex `f`, and
`disconnect("b", "f")` after it leaves the three edge records and the adjacency list of
`a` as they were. -/
theorem connect_disconnect_roundtrip_witness :
    ∃ g1 g2, connect 3 basicGraph "b" "f" 7 = some (g1, true) ∧
      disconnect 3 g1 "b" "f" = some (g2, true) ∧
      g2.edges = basicGraph.edges ∧
      mapAt g2.vertices "a" = some (Vertex.mk "a" [("b", 10), ("d", 40), ("c", 20)]) ∧
      mapAt g2.vertices "f" = some (Vertex.mk "f" []) := by
  obtain ⟨g1, g2, h1, h2, h3, h4, h5, -⟩ :=
    connect_disconnect_roundtrip true basicGraph basicGraph_reachable "b" "f" 7
      (by decide) (by decide)
  exact ⟨g1, g2, h1 0, h2 0, h3, h4 "a" _ rfl, h5 "f" rfl⟩

end GraphSearch
